import Mathlib

open Matrix

/- Verification of the layer library in src/lib/layer_utils.py.

The Python code is shallowly embedded as follows.

* A Python dict keyed by parameter name is an association list
  `List (String × α)` with Python-dict write semantics: `dictSet`
  overwrites the first occurrence of an existing key in place and
  appends a fresh key at the end, preserving insertion order.
* A Python value that may be `None` (an unpopulated gradient, say) is an
  `Option`.  An attribute that may be missing altogether (`hasattr`
  checks, attributes only created by `forward`) is also an `Option` at
  the field level.
* NumPy float arrays are functions into `ℝ` (`Matrix (Fin n) (Fin m) ℝ`
  for 2-d arrays) or nested lists `List (List ℝ)` where the code
  flattens and reshapes.
* Raising an exception is returning `Except.error`; a dict `KeyError`
  on lookup is `Option.none`.

Section one gives the definitions, translated from the source; a few
definitions are marked as specification-side (they transcribe the
specification text, not the code) and exist only to be compared with the
code-side definitions.  Section two proves the properties. -/

/-! ### Python dict primitives -/

/-- Dict read `m[k]`: first entry with the given key; `none` is a `KeyError`. -/
def dictGet {α : Type} : List (String × α) → String → Option α
  | [], _ => none
  | (k', v) :: rest, k => if k' = k then some v else dictGet rest k

/-- Dict write `m[k] = v`: overwrite the first occurrence of the key in
place, or append a fresh key at the end (Python insertion order). -/
def dictSet {α : Type} : List (String × α) → String → α → List (String × α)
  | [], k, v => [(k, v)]
  | (k', v') :: rest, k, v =>
    if k' = k then (k', v) :: rest else (k', v') :: dictSet rest k v

/-- Keys of a dict, in insertion order. -/
def keysOf {α : Type} (m : List (String × α)) : List String :=
  m.map Prod.fst

/-- Number of entries of `m` carrying key `k`. -/
def countKey {α : Type} (m : List (String × α)) (k : String) : ℕ :=
  (m.filter (fun nv => nv.1 = k)).length

/-- Left fold of dict writes, the effect of a Python loop
`for n, v in ws: m[n] = v`. -/
def writeFold {α : Type} (m : List (String × α)) (ws : List (String × α)) :
    List (String × α) :=
  ws.foldl (fun a nv => dictSet a nv.1 nv.2) m

/-! ### The network container (class `RNN` in the source) -/

/-- A layer as the container sees it: a name, a parameter dict and a
gradient dict.  The dicts are `Option`al because the container and
`load` probe for them (`hasattr(layer, "params")`); a missing dict is
a missing Python attribute. -/
structure PLayer (V : Type) where
  name : String
  params : Option (List (String × Option V))
  grads : Option (List (String × Option V))
deriving DecidableEq

/-- State of an `RNN` container object. -/
structure RNNState (V : Type) where
  params : List (String × Option V)
  grads : List (String × Option V)
  layers : List (PLayer V)
  paramName2Indices : List (String × ℕ)
  layer_names : List String
deriving DecidableEq

/-- Errors the container can raise. -/
inductive RNNError where
  /-- AttributeError: a layer lacks a `params`/`grads` dict. -/
  | attributeMissing : RNNError
  /-- ValueError "Existing name ...": two layers share a name. -/
  | duplicateName : String → RNNError
deriving DecidableEq

/-- One iteration of the `RNN.__init__` loop: register the layer's
non-`None` parameters under the running layer count, copy across all
gradient entries, then check the layer name for collisions and append
the layer.  The parameter/gradient processing happens before the name
check, as in the source. -/
def initStep {V : Type} (acc : RNNState V) (l : PLayer V) :
    Except RNNError (RNNState V) :=
  match l.params, l.grads with
  | some ps, some gs =>
    let acc1 := ps.foldl (fun (a : RNNState V) (nv : String × Option V) =>
      match nv.2 with
      | none => a
      | some _ =>
        { a with
          params := dictSet a.params nv.1 nv.2
          paramName2Indices := dictSet a.paramName2Indices nv.1 a.layers.length }) acc
    let acc2 := { acc1 with
      grads := gs.foldl (fun g (nv : String × Option V) => dictSet g nv.1 nv.2) acc1.grads }
    if l.name ∈ acc.layer_names then
      .error (.duplicateName l.name)
    else
      .ok { acc2 with
            layer_names := acc2.layer_names ++ [l.name]
            layers := acc2.layers ++ [l] }
  | _, _ => .error .attributeMissing

/-- The `RNN.__init__` loop over the ordered layer sequence. -/
def RNN.initGo {V : Type} : RNNState V → List (PLayer V) → Except RNNError (RNNState V)
  | acc, [] => .ok acc
  | acc, l :: rest =>
    match initStep acc l with
    | .ok acc' => RNN.initGo acc' rest
    | .error e => .error e

/-- `RNN.__init__(*args)`: build the registry from an ordered layer list. -/
def RNN.init {V : Type} (ls : List (PLayer V)) : Except RNNError (RNNState V) :=
  RNN.initGo { params := [], grads := [], layers := [],
               paramName2Indices := [], layer_names := [] } ls

/-- `RNN.assign(name, val)`: look the owning layer up by name and write the
value into that layer's parameter dict.  `none` is the `KeyError` /
`IndexError` / `AttributeError` path for an unknown name. -/
def RNN.assign {V : Type} (s : RNNState V) (name : String) (val : Option V) :
    Option (RNNState V) :=
  match dictGet s.paramName2Indices name with
  | none => none
  | some i =>
    match s.layers.get? i with
    | none => none
    | some l =>
      match l.params with
      | none => none
      | some m =>
        some { s with layers := s.layers.set i { l with params := some (dictSet m name val) } }

/-- `RNN.get_params(name)`: direct lookup in the container's flattened
`params` dict. -/
def RNN.get_params {V : Type} (s : RNNState V) (name : String) : Option (Option V) :=
  dictGet s.params name

/-- All layers' parameter dicts concatenated in layer order; `none` when
some layer has no `params` attribute. -/
def layerParamsList {V : Type} : List (PLayer V) → Option (List (String × Option V))
  | [] => some []
  | l :: rest =>
    match l.params, layerParamsList rest with
    | some ps, some acc => some (ps ++ acc)
    | _, _ => none

/-- `RNN.gather_params()`: re-flatten every layer's current parameter dict
into the registry, layer by layer and entry by entry. -/
def RNN.gather_params {V : Type} (s : RNNState V) : Except RNNError (RNNState V) :=
  match layerParamsList s.layers with
  | none => .error .attributeMissing
  | some ws => .ok { s with params := writeFold s.params ws }

/-- The effect of `RNN.load` on a single layer: skip it if it has no
`params` dict, otherwise overwrite each parameter whose name occurs in
the pretrained dict with (a copy of) the pretrained value. -/
def loadLayer {V : Type} (pretrained : List (String × V)) (l : PLayer V) : PLayer V :=
  match l.params with
  | none => l
  | some ps =>
    { l with params := some (ps.map (fun nv =>
        match dictGet pretrained nv.1 with
        | none => nv
        | some w => (nv.1, some w))) }

/-- `RNN.load(pretrained)`: apply `loadLayer` to every layer in order. -/
def RNN.load {V : Type} (s : RNNState V) (pretrained : List (String × V)) : RNNState V :=
  { s with layers := s.layers.map (loadLayer pretrained) }

/-! ### Constructors of the library's layer classes

Only the naming structure of `params`/`grads` matters to the container,
so the randomly initialised tensors are taken as arguments. -/

/-- `VanillaRNN.__init__`: parameters `name_wx`, `name_wh`, `name_b`;
gradients registered as `None`. -/
def mkVanillaRNN {V : Type} (name : String) (wx wh b : V) : PLayer V :=
  { name := name
    params := some [(name ++ "_wx", some wx), (name ++ "_wh", some wh), (name ++ "_b", some b)]
    grads := some [(name ++ "_wx", none), (name ++ "_wh", none), (name ++ "_b", none)] }

/-- `LSTM.__init__`: same parameter names as the vanilla cell. -/
def mkLSTM {V : Type} (name : String) (wx wh b : V) : PLayer V :=
  mkVanillaRNN name wx wh b

/-- `word_embedding.__init__`: single parameter `name_w`. -/
def mkWordEmbedding {V : Type} (name : String) (w : V) : PLayer V :=
  { name := name
    params := some [(name ++ "_w", some w)]
    grads := some [(name ++ "_w", none)] }

/-- `temporal_fc.__init__`: parameters `name_w`, `name_b`. -/
def mkTemporalFC {V : Type} (name : String) (w b : V) : PLayer V :=
  { name := name
    params := some [(name ++ "_w", some w), (name ++ "_b", some b)]
    grads := some [(name ++ "_w", none), (name ++ "_b", none)] }

/-- A layer produced by one of the four layer-class constructors. -/
def IsLibLayer {V : Type} (l : PLayer V) : Prop :=
  (∃ nm wx wh b, l = mkVanillaRNN nm wx wh b) ∨
  (∃ nm wx wh b, l = mkLSTM nm wx wh b) ∨
  (∃ nm w, l = mkWordEmbedding nm w) ∨
  (∃ nm w b, l = mkTemporalFC nm w b)

/-- Parameter names exposed by a layer (keys of its `params` dict). -/
def paramKeys {V : Type} (l : PLayer V) : List String :=
  keysOf (l.params.getD [])

/-- The suffixes the four layer classes append to their name to form
parameter names. -/
def libSuffixes : List String :=
  ["_wx", "_wh", "_b", "_w"]

/-- The name-to-owning-layer-index association the `__init__` loop builds,
written out directly: layer `base + j` of the list contributes one entry
per parameter key. -/
def pn2iAux {V : Type} (base : ℕ) : List (PLayer V) → List (String × ℕ)
  | [] => []
  | l :: rest => (paramKeys l).map (fun k => (k, base)) ++ pn2iAux (base + 1) rest

/-! ### Numeric kernel helper (`sigmoid`) -/

/-- The numerically stable two-branch logistic sigmoid of the source:
`1/(1+exp(-x))` for `x ≥ 0` and `exp(x)/(1+exp(x))` for `x < 0`. -/
noncomputable def sigmoid (x : ℝ) : ℝ :=
  if 0 ≤ x then 1 / (1 + Real.exp (-x)) else Real.exp x / (1 + Real.exp x)

/-- Specification-side plain logistic function `1/(1+exp(-x))`, to be
compared with the stable two-branch `sigmoid`. -/
noncomputable def logistic (x : ℝ) : ℝ :=
  1 / (1 + Real.exp (-x))

/-! ### Temporal softmax loss (`class temporal_softmax_loss`) -/

/-- State of a `temporal_softmax_loss` object.  `dLoss` and `label` are
`None` after `__init__`; `mask` is an attribute that only exists once
`forward` has run, so it is `none` initially as well. -/
structure TSLState where
  dim_average : Bool
  dLoss : Option (List (List ℝ))
  label : Option (List (List ℕ))
  mask : Option (List (List ℝ))

/-- `temporal_softmax_loss.__init__(dim_average)`. -/
def temporal_softmax_loss.mkState (da : Bool) : TSLState :=
  { dim_average := da, dLoss := none, label := none, mask := none }

/-- `np.max` of a row (the per-row maximum used for stability). -/
noncomputable def rowMax : List ℝ → ℝ
  | [] => 0
  | a :: t => t.foldl max a

/-- One row of the numerically stable softmax: exponentiate after
subtracting the row maximum, then normalise by the row sum. -/
noncomputable def softmaxRow (row : List ℝ) : List ℝ :=
  (row.map (fun a => Real.exp (a - rowMax row))).map
    (fun e => e / (row.map (fun a => Real.exp (a - rowMax row))).sum)

/-- `temporal_softmax_loss.forward(feat, label, mask)`: flatten the batch
and time axes, compute stable softmax probabilities per row, sum
`-mask * log prob[label]` over all rows, divide by the batch size `N`
(`feat.length`, not `N*T`) when `dim_average` is on, and store the
probabilities, label and mask for `backward`. -/
noncomputable def temporal_softmax_loss.forward (s : TSLState)
    (feat : List (List (List ℝ))) (label : List (List ℕ)) (mask : List (List ℝ)) :
    ℝ × TSLState :=
  let featFlat := feat.flatten
  let labelFlat := label.flatten
  let maskFlat := mask.flatten
  let probs := featFlat.map softmaxRow
  let logs := List.zipWith (fun (row : List ℝ) (lab : ℕ) => Real.log (row.getD lab 0))
    probs labelFlat
  let loss0 := -(List.zipWith (fun m lg => m * lg) maskFlat logs).sum
  let loss := if s.dim_average then loss0 / (feat.length : ℝ) else loss0
  (loss, { s with dLoss := some probs, label := some label, mask := some mask })

/-- Errors `temporal_softmax_loss.backward` can raise. -/
inductive TslError where
  /-- AttributeError at `N, T = self.label.shape`: `self.label` is `None`. -/
  | noneShape : TslError
  /-- ValueError "No forward function called before for this module!". -/
  | noForward : TslError
  /-- AttributeError: `self.mask` never created by a `forward`. -/
  | noneMask : TslError
deriving DecidableEq

/-- `dLoss[r, label_r] -= 1.0` on one row. -/
noncomputable def decAt (row : List ℝ) (lab : ℕ) : List ℝ :=
  row.set lab (row.getD lab 0 - 1)

/-- `reshape(N, T, -1)`: regroup `N*T` rows into `N` groups of `T`. -/
def chunks (N T : ℕ) (rows : List (List ℝ)) : List (List (List ℝ)) :=
  (List.range N).map (fun n => (rows.drop (n * T)).take T)

/-- `temporal_softmax_loss.backward()`: read `N, T` from `self.label.shape`
(an AttributeError when `label` is `None` — this line runs before the
`dLoss is None` guard), then check `dLoss`, subtract 1 at each row's
label position, divide by `N` when `dim_average`, multiply each row by
its mask value, store the result back into `dLoss` and return it
reshaped to `(N, T, -1)`. -/
noncomputable def temporal_softmax_loss.backward (s : TSLState) :
    Except TslError (List (List (List ℝ)) × TSLState) :=
  match s.label with
  | none => .error .noneShape
  | some lab =>
    let N := lab.length
    let T := (lab.headD []).length
    match s.dLoss with
    | none => .error .noForward
    | some d =>
      let d1 := List.zipWith decAt d lab.flatten
      let d2 := if s.dim_average then d1.map (fun row => row.map (fun a => a / (N : ℝ))) else d1
      match s.mask with
      | none => .error .noneMask
      | some mask =>
        let d3 := List.zipWith (fun (row : List ℝ) m => row.map (fun a => a * m)) d2 mask.flatten
        .ok (chunks N T d3, { s with dLoss := some d3 })

/-- Whether an `Except` computation succeeded. -/
def exceptOk {ε α : Type} : Except ε α → Bool
  | .ok _ => true
  | .error _ => false

/-- Specification-side softmax probability of the true class, written
without the stability shift: `exp(score) / Σ exp(scores)`. -/
noncomputable def plainSoftmaxProb (row : List ℝ) (lab : ℕ) : ℝ :=
  Real.exp (row.getD lab 0) / (row.map Real.exp).sum

/-- Specification-side loss numerator: the sum, over the flattened
positions whose mask value is 1, of the log softmax probability of the
true class. -/
noncomputable def maskedLogSum (feat : List (List (List ℝ))) (label : List (List ℕ))
    (mask : List (List ℝ)) : ℝ :=
  (((((feat.flatten).zip label.flatten).zip mask.flatten).filter
      (fun p => decide (p.2 = (1 : ℝ)))).map
    (fun p => Real.log (plainSoftmaxProb p.1.1 p.1.2))).sum

/-! ### LSTM cell (`class LSTM`), single step -/

/-- Elementwise application of a scalar function to a matrix. -/
def mapMat {n m : ℕ} (f : ℝ → ℝ) (A : Matrix (Fin n) (Fin m) ℝ) : Matrix (Fin n) (Fin m) ℝ :=
  fun i j => f (A i j)

/-- The affine transform `A = x·Wx + prev_h·Wh + b` of `LSTM.step_forward`. -/
noncomputable def lstm_A {N D H : ℕ} (Wx : Matrix (Fin D) (Fin (4 * H)) ℝ)
    (Wh : Matrix (Fin H) (Fin (4 * H)) ℝ) (b : Fin (4 * H) → ℝ)
    (x : Matrix (Fin N) (Fin D) ℝ) (prev_h : Matrix (Fin N) (Fin H) ℝ) :
    Matrix (Fin N) (Fin (4 * H)) ℝ :=
  fun n j => (x * Wx) n j + (prev_h * Wh) n j + b j

/-- Column block `A[:, k*H : (k+1)*H]` of an `N × 4H` matrix. -/
def gateSlice {N H : ℕ} (k : ℕ) (hk : k + 1 ≤ 4) (A : Matrix (Fin N) (Fin (4 * H)) ℝ) :
    Matrix (Fin N) (Fin H) ℝ :=
  fun n j => A n ⟨k * H + j.val, by
    have hj := j.isLt
    have h1 : (k + 1) * H = k * H + H := by ring
    have h2 : (k + 1) * H ≤ 4 * H := Nat.mul_le_mul_right H hk
    omega⟩

/-- The nine-entry `meta` list stored by `LSTM.step_forward`:
`[x, prev_h, next_h, prev_c, i, f, c, o, g]`. -/
structure LstmMeta (N D H : ℕ) where
  x : Matrix (Fin N) (Fin D) ℝ
  prev_h : Matrix (Fin N) (Fin H) ℝ
  next_h : Matrix (Fin N) (Fin H) ℝ
  prev_c : Matrix (Fin N) (Fin H) ℝ
  i : Matrix (Fin N) (Fin H) ℝ
  f : Matrix (Fin N) (Fin H) ℝ
  next_c : Matrix (Fin N) (Fin H) ℝ
  o : Matrix (Fin N) (Fin H) ℝ
  g : Matrix (Fin N) (Fin H) ℝ

/-- Return value of `LSTM.step_forward`: `(next_h, next_c, meta)`. -/
structure LstmStepOut (N D H : ℕ) where
  next_h : Matrix (Fin N) (Fin H) ℝ
  next_c : Matrix (Fin N) (Fin H) ℝ
  meta : LstmMeta N D H

/-- `LSTM.step_forward(x, prev_h, prev_c)`: affine transform, slice into
the four gates in order `[input, forget, output, new-memory]`, apply the
stable `sigmoid` to the first three and `tanh` to the fourth, update the
cell and hidden state, and record the nine `meta` values. -/
noncomputable def LSTM.step_forward {N D H : ℕ} (Wx : Matrix (Fin D) (Fin (4 * H)) ℝ)
    (Wh : Matrix (Fin H) (Fin (4 * H)) ℝ) (b : Fin (4 * H) → ℝ)
    (x : Matrix (Fin N) (Fin D) ℝ) (prev_h prev_c : Matrix (Fin N) (Fin H) ℝ) :
    LstmStepOut N D H :=
  let A := lstm_A Wx Wh b x prev_h
  let i_t := mapMat sigmoid (gateSlice 0 (by omega) A)
  let f_t := mapMat sigmoid (gateSlice 1 (by omega) A)
  let o_t := mapMat sigmoid (gateSlice 2 (by omega) A)
  let g_t := mapMat Real.tanh (gateSlice 3 (by omega) A)
  let c_t : Matrix (Fin N) (Fin H) ℝ := fun n j => f_t n j * prev_c n j + i_t n j * g_t n j
  let h_t : Matrix (Fin N) (Fin H) ℝ := fun n j => o_t n j * Real.tanh (c_t n j)
  { next_h := h_t, next_c := c_t
    meta := { x := x, prev_h := prev_h, next_h := h_t, prev_c := prev_c,
              i := i_t, f := f_t, next_c := c_t, o := o_t, g := g_t } }

/-! ### Vanilla recurrent cell (`class VanillaRNN`) -/

/-- The `meta = [x, prev_h, next_h]` cache of `VanillaRNN.step_forward`. -/
structure RnnMeta (N D H : ℕ) where
  x : Matrix (Fin N) (Fin D) ℝ
  prev_h : Matrix (Fin N) (Fin H) ℝ
  next_h : Matrix (Fin N) (Fin H) ℝ

/-- `VanillaRNN.step_forward(x, prev_h)`:
`next_h = tanh(x·Wx + prev_h·Wh + b)`.  The source's dimension assert is
enforced here by the `Fin`-indexed types. -/
noncomputable def rnn_step_forward {N D H : ℕ} (Wx : Matrix (Fin D) (Fin H) ℝ)
    (Wh : Matrix (Fin H) (Fin H) ℝ) (b : Fin H → ℝ)
    (x : Matrix (Fin N) (Fin D) ℝ) (prev_h : Matrix (Fin N) (Fin H) ℝ) :
    Matrix (Fin N) (Fin H) ℝ :=
  fun n h => Real.tanh ((x * Wx) n h + (prev_h * Wh) n h + b h)

/-- Return value of `VanillaRNN.step_backward`:
`(dx, dprev_h, dWx, dWh, db)`. -/
structure RnnStepGrads (N D H : ℕ) where
  dx : Matrix (Fin N) (Fin D) ℝ
  dprev_h : Matrix (Fin N) (Fin H) ℝ
  dWx : Matrix (Fin D) (Fin H) ℝ
  dWh : Matrix (Fin H) (Fin H) ℝ
  db : Fin H → ℝ

/-- `VanillaRNN.step_backward(dnext_h, meta)`: `dtanh = dnext_h*(1-next_h²)`,
then the five products of the source. -/
noncomputable def rnn_step_backward {N D H : ℕ} (Wx : Matrix (Fin D) (Fin H) ℝ)
    (Wh : Matrix (Fin H) (Fin H) ℝ) (dnext_h : Matrix (Fin N) (Fin H) ℝ)
    (meta : RnnMeta N D H) : RnnStepGrads N D H :=
  let dtanh : Matrix (Fin N) (Fin H) ℝ := fun n h => dnext_h n h * (1 - (meta.next_h n h) ^ 2)
  { dx := dtanh * Wxᵀ
    dprev_h := dtanh * Whᵀ
    dWx := meta.xᵀ * dtanh
    dWh := meta.prev_hᵀ * dtanh
    db := fun h => ∑ n, dtanh n h }

/-- The hidden-state sequence `h[:, t, :]` produced by `VanillaRNN.forward`:
step 0 consumes `h0`, step `t+1` consumes step `t`'s hidden state.
Timesteps are indexed by `ℕ`; a run over `T` timesteps uses `t < T`. -/
noncomputable def rnn_hidden {N D H : ℕ} (Wx : Matrix (Fin D) (Fin H) ℝ)
    (Wh : Matrix (Fin H) (Fin H) ℝ) (b : Fin H → ℝ)
    (x : ℕ → Matrix (Fin N) (Fin D) ℝ) (h0 : Matrix (Fin N) (Fin H) ℝ) :
    ℕ → Matrix (Fin N) (Fin H) ℝ
  | 0 => rnn_step_forward Wx Wh b (x 0) h0
  | t + 1 => rnn_step_forward Wx Wh b (x (t + 1)) (rnn_hidden Wx Wh b x h0 t)

/-- The per-timestep `meta` list stored by `VanillaRNN.forward`. -/
noncomputable def rnn_metas {N D H : ℕ} (Wx : Matrix (Fin D) (Fin H) ℝ)
    (Wh : Matrix (Fin H) (Fin H) ℝ) (b : Fin H → ℝ)
    (x : ℕ → Matrix (Fin N) (Fin D) ℝ) (h0 : Matrix (Fin N) (Fin H) ℝ) :
    ℕ → RnnMeta N D H
  | 0 => { x := x 0, prev_h := h0, next_h := rnn_hidden Wx Wh b x h0 0 }
  | t + 1 => { x := x (t + 1), prev_h := rnn_hidden Wx Wh b x h0 t,
               next_h := rnn_hidden Wx Wh b x h0 (t + 1) }

/-- The mutable loop state of `VanillaRNN.backward`: the `dx` array being
filled, the result `dh0`, the three gradient accumulators (zero
initialised, as `np.zeros`), and the running `dnext_h`. -/
structure RnnBackAcc (N D H : ℕ) where
  dx : ℕ → Matrix (Fin N) (Fin D) ℝ
  dh0 : Matrix (Fin N) (Fin H) ℝ
  dWx : Matrix (Fin D) (Fin H) ℝ
  dWh : Matrix (Fin H) (Fin H) ℝ
  db : Fin H → ℝ
  dnext_h : Matrix (Fin N) (Fin H) ℝ

/-- One iteration of the `for i in reversed(range(0, T))` loop of
`VanillaRNN.backward`, at timestep `i`. -/
noncomputable def rnn_back_step {N D H : ℕ} (Wx : Matrix (Fin D) (Fin H) ℝ)
    (Wh : Matrix (Fin H) (Fin H) ℝ) (dh : ℕ → Matrix (Fin N) (Fin H) ℝ)
    (metas : ℕ → RnnMeta N D H) (i : ℕ) (acc : RnnBackAcc N D H) : RnnBackAcc N D H :=
  let s := rnn_step_backward Wx Wh acc.dnext_h (metas i)
  { dx := Function.update acc.dx i s.dx
    dh0 := if i = 0 then s.dprev_h else acc.dh0
    dWx := acc.dWx + s.dWx
    dWh := acc.dWh + s.dWh
    db := acc.db + s.db
    dnext_h := if i = 0 then acc.dnext_h else s.dprev_h + dh (i - 1) }

/-- The reversed loop of `VanillaRNN.backward`, from timestep `i` down
to timestep 0. -/
noncomputable def rnn_back_loop {N D H : ℕ} (Wx : Matrix (Fin D) (Fin H) ℝ)
    (Wh : Matrix (Fin H) (Fin H) ℝ) (dh : ℕ → Matrix (Fin N) (Fin H) ℝ)
    (metas : ℕ → RnnMeta N D H) : ℕ → RnnBackAcc N D H → RnnBackAcc N D H
  | 0, acc => rnn_back_step Wx Wh dh metas 0 acc
  | i + 1, acc => rnn_back_loop Wx Wh dh metas i (rnn_back_step Wx Wh dh metas (i + 1) acc)

/-- `VanillaRNN.backward(dh)` over `T = K + 1` timesteps: zero-initialise
`dx`, `dh0` and the gradient accumulators, seed `dnext_h = dh[:, T-1, :]`,
and run the reversed loop from `T-1` down to 0. -/
noncomputable def rnn_backward {N D H : ℕ} (Wx : Matrix (Fin D) (Fin H) ℝ)
    (Wh : Matrix (Fin H) (Fin H) ℝ) (dh : ℕ → Matrix (Fin N) (Fin H) ℝ)
    (metas : ℕ → RnnMeta N D H) (K : ℕ) : RnnBackAcc N D H :=
  rnn_back_loop Wx Wh dh metas K
    { dx := fun _ => 0, dh0 := 0, dWx := 0, dWh := 0, db := 0, dnext_h := dh K }

/-- Specification-side incoming hidden-state gradient, defined downward
from the last timestep: `g` steps below `T-1 = K` the incoming gradient
is `dh` at that timestep plus the recurrent gradient from the step
above. -/
noncomputable def rnn_delta_aux {N D H : ℕ} (Wx : Matrix (Fin D) (Fin H) ℝ)
    (Wh : Matrix (Fin H) (Fin H) ℝ) (dh : ℕ → Matrix (Fin N) (Fin H) ℝ)
    (metas : ℕ → RnnMeta N D H) (K : ℕ) : ℕ → Matrix (Fin N) (Fin H) ℝ
  | 0 => dh K
  | g + 1 => dh (K - (g + 1)) +
      (rnn_step_backward Wx Wh (rnn_delta_aux Wx Wh dh metas K g) (metas (K - g))).dprev_h

/-- Specification-side incoming hidden-state gradient at timestep `t` of a
backward pass over `T = K + 1` timesteps. -/
noncomputable def rnn_delta {N D H : ℕ} (Wx : Matrix (Fin D) (Fin H) ℝ)
    (Wh : Matrix (Fin H) (Fin H) ℝ) (dh : ℕ → Matrix (Fin N) (Fin H) ℝ)
    (metas : ℕ → RnnMeta N D H) (K : ℕ) (t : ℕ) : Matrix (Fin N) (Fin H) ℝ :=
  rnn_delta_aux Wx Wh dh metas K (K - t)

/-! ### Word embedding (`class word_embedding`), backward -/

/-- `np.add.at(table, idx, rows)`: sequential unbuffered scatter-add of
rows into the table at the given indices. -/
def scatter_add {Vc Dd : ℕ} (tbl : Fin Vc → Fin Dd → ℝ)
    (pairs : List (Fin Vc × (Fin Dd → ℝ))) : Fin Vc → Fin Dd → ℝ :=
  pairs.foldl (fun t p => Function.update t p.1 (t p.1 + p.2)) tbl

/-- `word_embedding.backward(dout)`: zero the gradient table, then
`np.add.at(grads, x, dout)` where `x` is the index array stored in meta
by `forward`.  Indices and upstream rows are paired position by
position over the flattened batch/time axes. -/
def word_embedding.backward {Vc Dd : ℕ} (x : List (List (Fin Vc)))
    (dout : List (List (Fin Dd → ℝ)))  : Fin Vc → Fin Dd → ℝ :=
  scatter_add (fun _ _ => 0) (x.flatten.zip dout.flatten)

/-! ### Temporal fully-connected layer (`class temporal_fc`), backward -/

/-- `reshape(N * T, D)`: flatten the batch and time axes of a 3-d array
into the row index of a matrix. -/
def tfc_flatten {N T M : ℕ} (a : Fin N → Fin T → Fin M → ℝ) :
    Matrix (Fin N × Fin T) (Fin M) ℝ :=
  fun p m => a p.1 p.2 m

/-- Return value of `temporal_fc.backward`: `dx` plus the two stored
gradients. -/
structure TfcGrads (N T D M : ℕ) where
  dx : Fin N → Fin T → Fin D → ℝ
  dw : Matrix (Fin D) (Fin M) ℝ
  db : Fin M → ℝ

/-- `temporal_fc.backward(dout)`: `dx = dout_flat · wᵀ` reshaped back,
`dw = (dout_flatᵀ · x_flat)ᵀ` (the transpose-of-transpose form of the
source), `db = dout.sum(axis=(0, 1))`. -/
noncomputable def temporal_fc.backward {N T D M : ℕ} (w : Matrix (Fin D) (Fin M) ℝ)
    (x : Fin N → Fin T → Fin D → ℝ) (dout : Fin N → Fin T → Fin M → ℝ) :
    TfcGrads N T D M :=
  { dx := fun n t d => (tfc_flatten dout * wᵀ) (n, t) d
    dw := ((tfc_flatten dout)ᵀ * tfc_flatten x)ᵀ
    db := fun m => ∑ p : Fin N × Fin T, tfc_flatten dout p m }

/-! ## Properties

First the dictionary lemmas, then one theorem (plus witness or
counterexample) per property of the specification. -/

theorem dictGet_dictSet_self {α : Type} (m : List (String × α)) (k : String) (v : α) :
    dictGet (dictSet m k v) k = some v := by
  induction m with
  | nil => simp [dictSet, dictGet]
  | cons hd tl ih =>
    obtain ⟨k', v'⟩ := hd
    by_cases h : k' = k
    · simp [dictSet, dictGet, h]
    · simp [dictSet, dictGet, h, ih]

theorem dictGet_dictSet_ne {α : Type} (m : List (String × α)) {k k' : String} (v : α)
    (h : k' ≠ k) : dictGet (dictSet m k v) k' = dictGet m k' := by
  induction m with
  | nil =>
    have h' : ¬ k = k' := fun hh => h hh.symm
    simp [dictSet, dictGet, h']
  | cons hd tl ih =>
    obtain ⟨k0, v0⟩ := hd
    by_cases h0 : k0 = k
    · subst h0
      have h' : ¬ k0 = k' := fun hh => h hh.symm
      simp [dictSet, dictGet, h']
    · simp only [dictSet, if_neg h0]
      by_cases h1 : k0 = k'
      · simp [dictGet, h1]
      · simp [dictGet, h1, ih]

theorem dictGet_eq_none_iff {α : Type} (m : List (String × α)) (k : String) :
    dictGet m k = none ↔ k ∉ keysOf m := by
  induction m with
  | nil => simp [dictGet, keysOf]
  | cons hd tl ih =>
    obtain ⟨k0, v0⟩ := hd
    by_cases h0 : k0 = k
    · simp [dictGet, keysOf, h0]
    · simp [dictGet, keysOf, h0, ih, Ne.symm h0]

theorem dictGet_append {α : Type} (m1 m2 : List (String × α)) (k : String) :
    dictGet (m1 ++ m2) k = (dictGet m1 k).elim (dictGet m2 k) some := by
  induction m1 with
  | nil => simp [dictGet]
  | cons hd tl ih =>
    obtain ⟨k0, v0⟩ := hd
    by_cases h0 : k0 = k
    · simp [dictGet, h0]
    · simp [dictGet, h0, ih]

theorem dictSet_eq_append {α : Type} (m : List (String × α)) (k : String) (v : α)
    (h : k ∉ keysOf m) : dictSet m k v = m ++ [(k, v)] := by
  induction m with
  | nil => simp [dictSet]
  | cons hd tl ih =>
    obtain ⟨k0, v0⟩ := hd
    simp only [keysOf, List.map_cons, List.mem_cons] at h
    push_neg at h
    have h0 : ¬ k0 = k := fun hh => h.1 hh.symm
    simp [dictSet, h0, ih (by simpa [keysOf] using h.2)]

theorem writeFold_nil {α : Type} (m : List (String × α)) : writeFold m [] = m := rfl

theorem writeFold_cons {α : Type} (m : List (String × α)) (nv : String × α)
    (ws : List (String × α)) :
    writeFold m (nv :: ws) = writeFold (dictSet m nv.1 nv.2) ws := rfl

theorem writeFold_eq_append {α : Type} (ws : List (String × α)) :
    ∀ m : List (String × α), (∀ s ∈ keysOf ws, s ∉ keysOf m) → (keysOf ws).Nodup →
    writeFold m ws = m ++ ws := by
  induction ws with
  | nil => intro m _ _; simp [writeFold]
  | cons hd tl ih =>
    intro m hfresh hnd
    obtain ⟨k0, v0⟩ := hd
    rw [writeFold_cons]
    have hk0 : k0 ∉ keysOf m := hfresh k0 (by simp [keysOf])
    rw [dictSet_eq_append m k0 v0 hk0]
    simp only [keysOf, List.map_cons, List.nodup_cons] at hnd
    rw [ih (m ++ [(k0, v0)]) ?fresh (by simpa [keysOf] using hnd.2)]
    · simp
    · intro s hs
      simp only [keysOf, List.map_append, List.mem_append, List.map_cons] at *
      rintro (hsm | hsk)
      · exact hfresh s (by simp [hs]) hsm
      · simp only [List.map_nil, List.mem_singleton] at hsk
        subst hsk
        exact hnd.1 (by simpa [keysOf] using hs)

theorem dictGet_writeFold {α : Type} (ws : List (String × α)) :
    ∀ m : List (String × α), ∀ k : String,
    dictGet (writeFold m ws) k =
      ((ws.filter (fun nv => nv.1 = k)).getLast?).elim (dictGet m k) (fun nv => some nv.2) := by
  induction ws with
  | nil => intro m k; simp [writeFold]
  | cons hd tl ih =>
    intro m k
    obtain ⟨k0, v0⟩ := hd
    rw [writeFold_cons, ih]
    by_cases h0 : k0 = k
    · subst h0
      simp only [List.filter_cons, decide_eq_true_eq, if_pos rfl]
      rcases hlast : (tl.filter (fun nv => nv.1 = k0)).getLast? with _ | nv
      · rw [List.getLast?_eq_none_iff] at hlast
        simp [hlast, dictGet_dictSet_self]
      · have hg : ((k0, v0) :: tl.filter (fun nv => nv.1 = k0)).getLast? = some nv := by
          rcases hnil : tl.filter (fun nv => nv.1 = k0) with _ | ⟨a, l⟩
          · rw [hnil] at hlast; simp at hlast
          · rw [hnil] at hlast
            rw [hnil, List.getLast?_cons_cons]
            exact hlast
        simp [hg, hlast]
    · simp only [List.filter_cons, decide_eq_true_eq, if_neg h0]
      rw [dictGet_dictSet_ne m v0 (fun hh => h0 hh.symm)]

theorem filter_key_eq_nil {α : Type} (m : List (String × α)) (k : String)
    (h : k ∉ keysOf m) : m.filter (fun nv => nv.1 = k) = [] := by
  induction m with
  | nil => simp
  | cons hd tl ih =>
    obtain ⟨k0, v0⟩ := hd
    simp only [keysOf, List.map_cons, List.mem_cons] at h
    push_neg at h
    have h0 : ¬ k0 = k := fun hh => h.1 hh.symm
    simp [List.filter_cons, h0, ih (by simpa [keysOf] using h.2)]

theorem filter_dictSet_of_countKey_one {α : Type} (m : List (String × α)) (k : String)
    (v : α) (h : countKey m k = 1) :
    (dictSet m k v).filter (fun nv => nv.1 = k) = [(k, v)] := by
  induction m with
  | nil => simp [countKey] at h
  | cons hd tl ih =>
    obtain ⟨k0, v0⟩ := hd
    by_cases h0 : k0 = k
    · subst h0
      have hf : tl.filter (fun nv => nv.1 = k0) = [] := by
        have h' := h
        simp only [countKey] at h'
        rw [List.filter_cons, if_pos (by simp), List.length_cons] at h'
        exact List.eq_nil_of_length_eq_zero (by omega)
      simp [dictSet, List.filter_cons, hf]
    · have h' : countKey tl k = 1 := by
        simpa [countKey, List.filter_cons, h0] using h
      simp [dictSet, h0, List.filter_cons, ih h']

theorem dictGet_map_snd {α β : Type} (g : String → α → β) (m : List (String × α))
    (k : String) :
    dictGet (m.map (fun nv => (nv.1, g nv.1 nv.2))) k = (dictGet m k).map (g k) := by
  induction m with
  | nil => simp [dictGet]
  | cons hd tl ih =>
    obtain ⟨k0, v0⟩ := hd
    by_cases h0 : k0 = k
    · subst h0; simp [dictGet]
    · simp [dictGet, h0, ih]

theorem get_append_length {α : Type} (pre : List α) (l : α) (post : List α) :
    (pre ++ l :: post).get? pre.length = some l := by
  induction pre with
  | nil => rfl
  | cons hd tl ih => simpa using ih

theorem set_append_length {α : Type} (pre : List α) (l x : α) (post : List α) :
    (pre ++ l :: post).set pre.length x = pre ++ x :: post := by
  induction pre with
  | nil => rfl
  | cons hd tl ih => simp [List.set, ih]

theorem layerParamsList_eq_flatten {V : Type} :
    ∀ ls : List (PLayer V), (∀ l ∈ ls, ∃ m, l.params = some m) →
    layerParamsList ls = some ((ls.map (fun l => l.params.getD [])).flatten) := by
  intro ls
  induction ls with
  | nil => intro _; simp [layerParamsList]
  | cons l rest ih =>
    intro hall
    obtain ⟨m, hm⟩ := hall l (by simp)
    rw [layerParamsList, hm, ih (fun l' hl' => hall l' (by simp [hl']))]
    simp [hm]

theorem filter_flatten_params_nil {V : Type} (name : String) :
    ∀ ls : List (PLayer V), (∀ l' ∈ ls, ∃ m', l'.params = some m' ∧ name ∉ keysOf m') →
    ((ls.map (fun l => l.params.getD [])).flatten).filter (fun nv => nv.1 = name) = [] := by
  intro ls
  induction ls with
  | nil => intro _; simp
  | cons l rest ih =>
    intro hall
    obtain ⟨m', hm', hnot⟩ := hall l (by simp)
    simp only [List.map_cons, List.flatten_cons, List.filter_append]
    rw [hm']
    simp only [Option.getD_some]
    rw [filter_key_eq_nil m' name hnot, ih (fun l' hl' => hall l' (by simp [hl']))]
    rfl

/-- C1 (counterexample): on a network holding one word-embedding layer
whose parameter `we_w` was registered with value 0, `assign("we_w", 1)`
followed by `get_params("we_w")` returns the construction-time value 0,
not the assigned value 1 — `assign` rebinds the layer's dict entry and
never updates the registry's flattened `params` dict. -/
theorem c1_assign_get_params_cex :
    (RNN.init [mkWordEmbedding ("we") (0 : Int)]).map
      (fun s => (RNN.assign s ("we_w") (some 1)).map (fun s' => RNN.get_params s' ("we_w")))
      = Except.ok (some (some (some (0 : Int))))
    ∧ some (some (some (0 : Int))) ≠ some (some (some (1 : Int))) := by
  constructor
  · rfl
  · decide

/-- C1 (amended): `assign(name, v)` writes `v` into the owning layer's
parameter dict but leaves the registry's flattened `params` dict
untouched, so `get_params(name)` still returns the registry's
construction-time value; the assigned value is visible through the
owning layer, and through `get_params` once `gather_params()` has
resynchronised the registry. -/
theorem c1_assign_updates_layer_registry_after_gather {V : Type} (s : RNNState V)
    (name : String) (v : V) (pre post : List (PLayer V)) (l : PLayer V)
    (m : List (String × Option V))
    (hlayers : s.layers = pre ++ l :: post)
    (hidx : dictGet s.paramName2Indices name = some pre.length)
    (hm : l.params = some m)
    (hcount : countKey m name = 1)
    (hothers : ∀ l' ∈ pre ++ post, ∃ m', l'.params = some m' ∧ name ∉ keysOf m') :
    ∃ s', RNN.assign s name (some v) = some s'
      ∧ s'.params = s.params
      ∧ RNN.get_params s' name = RNN.get_params s name
      ∧ s'.layers.get? pre.length = some { l with params := some (dictSet m name (some v)) }
      ∧ dictGet (dictSet m name (some v)) name = some (some v)
      ∧ ∃ s'', RNN.gather_params s' = Except.ok s''
          ∧ RNN.get_params s'' name = some (some v) := by
  have hget : s.layers.get? pre.length = some l := by
    rw [hlayers]; exact get_append_length pre l post
  set l' : PLayer V := { l with params := some (dictSet m name (some v)) } with hl'
  have hassign : RNN.assign s name (some v) = some { s with layers := s.layers.set pre.length l' } := by
    simp only [RNN.assign, hidx, hget, hm]
  have hset : s.layers.set pre.length l' = pre ++ l' :: post := by
    rw [hlayers]; exact set_append_length pre l l' post
  refine ⟨_, hassign, rfl, rfl, ?_, dictGet_dictSet_self m name (some v), ?_⟩
  · show (s.layers.set pre.length l').get? pre.length = some l'
    rw [hset]; exact get_append_length pre l' post
  · have hall : ∀ la ∈ pre ++ l' :: post, ∃ ma, la.params = some ma := by
      intro la hla
      rcases List.mem_append.mp hla with hpre | hcons
      · obtain ⟨ma, hma, _⟩ := hothers la (List.mem_append.mpr (Or.inl hpre))
        exact ⟨ma, hma⟩
      · rcases List.mem_cons.mp hcons with hla' | hpost
        · exact ⟨dictSet m name (some v), by rw [hla']⟩
        · obtain ⟨ma, hma, _⟩ := hothers la (List.mem_append.mpr (Or.inr hpost))
          exact ⟨ma, hma⟩
    have hflat := layerParamsList_eq_flatten (pre ++ l' :: post) hall
    set wsAll := ((pre ++ l' :: post).map (fun la => la.params.getD [])).flatten with hws
    have hgather : RNN.gather_params { s with layers := s.layers.set pre.length l' } = Except.ok { s with layers := pre ++ l' :: post, params := writeFold s.params wsAll } := by
      rw [RNN.gather_params]
      simp only [hset, hflat]
    refine ⟨_, hgather, ?_⟩
    show dictGet (writeFold s.params wsAll) name = some (some v)
    rw [dictGet_writeFold]
    have hfilter : (wsAll.filter (fun nv => nv.1 = name)) = [(name, some v)] := by
      rw [hws]
      simp only [List.map_append, List.map_cons, List.flatten_append, List.flatten_cons,
        List.filter_append]
      rw [filter_flatten_params_nil name pre (fun l' hl' =>
        hothers l' (List.mem_append.mpr (Or.inl hl')))]
      rw [filter_flatten_params_nil name post (fun l' hl' =>
        hothers l' (List.mem_append.mpr (Or.inr hl')))]
      have : l'.params.getD [] = dictSet m name (some v) := rfl
      rw [this, filter_dictSet_of_countKey_one m name (some v) hcount]
      simp
    rw [hfilter]
    rfl

/-- C1 (witness): the amended statement instantiated on a concrete
one-layer network. -/
theorem c1_amended_witness :
    ∃ s', RNN.assign
        ({ params := [(("we_w"), some (0 : Int))], grads := [(("we_w"), none)],
           layers := [mkWordEmbedding ("we") (0 : Int)],
           paramName2Indices := [(("we_w"), 0)], layer_names := [("we")] } : RNNState Int)
        ("we_w") (some 1) = some s'
      ∧ s'.params = [(("we_w"), some (0 : Int))]
      ∧ RNN.get_params s' ("we_w") = some (some 0)
      ∧ s'.layers.get? 0 = some { mkWordEmbedding ("we") (0 : Int) with
          params := some (dictSet [(("we_w"), some (0 : Int))] ("we_w") (some 1)) }
      ∧ dictGet (dictSet [(("we_w"), some (0 : Int))] ("we_w") (some 1)) ("we_w") = some (some 1)
      ∧ ∃ s'', RNN.gather_params s' = Except.ok s''
          ∧ RNN.get_params s'' ("we_w") = some (some 1) := by
  have h := c1_assign_updates_layer_registry_after_gather
    ({ params := [(("we_w"), some (0 : Int))], grads := [(("we_w"), none)],
       layers := [mkWordEmbedding ("we") (0 : Int)],
       paramName2Indices := [(("we_w"), 0)], layer_names := [("we")] } : RNNState Int)
    ("we_w") 1 [] [] (mkWordEmbedding ("we") (0 : Int)) [(("we_w"), some (0 : Int))]
    rfl rfl rfl (by decide) (by simp)
  obtain ⟨s', h1, h2, h3, h4, h5, h6⟩ := h
  exact ⟨s', h1, h2, by rw [h3]; rfl, h4, h5, h6⟩

/-- C8: `load(pretrained)` rewrites the layer list only: in each layer
exposing a parameter dict, exactly the parameters whose names occur in
the pretrained mapping receive the pretrained value, every other
parameter keeps its value, the layer's name and gradients are untouched,
and a layer without a parameter dict is returned unchanged (skipped
silently). -/
theorem c8_load_spec {V : Type} (s : RNNState V) (pretrained : List (String × V)) :
    ((RNN.load s pretrained).layers = s.layers.map (loadLayer pretrained)
      ∧ (RNN.load s pretrained).params = s.params
      ∧ (RNN.load s pretrained).grads = s.grads)
    ∧ (∀ l : PLayer V, l.params = none → loadLayer pretrained l = l)
    ∧ (∀ (l : PLayer V) (m : List (String × Option V)), l.params = some m →
        loadLayer pretrained l =
          { l with params := some (m.map (fun nv =>
              (nv.1, (dictGet pretrained nv.1).elim nv.2 (fun w => some w)))) }
        ∧ ∀ name, dictGet (m.map (fun nv =>
              (nv.1, (dictGet pretrained nv.1).elim nv.2 (fun w => some w)))) name =
            (dictGet m name).map (fun old => (dictGet pretrained name).elim old (fun w => some w))) := by
  refine ⟨⟨rfl, rfl, rfl⟩, ?_, ?_⟩
  · intro l h
    rw [loadLayer, h]
  · intro l m h
    constructor
    · rw [loadLayer, h]
      have hfun : (fun (nv : String × Option V) =>
          match dictGet pretrained nv.1 with
          | none => nv
          | some w => (nv.1, some w)) =
          (fun (nv : String × Option V) =>
            (nv.1, (dictGet pretrained nv.1).elim nv.2 (fun w => some w))) := by
        funext nv
        rcases hh : dictGet pretrained nv.1 with _ | w <;> simp [hh]
      rw [hfun]
    · intro name
      exact dictGet_map_snd (fun k old => (dictGet pretrained k).elim old (fun w => some w))
        m name

/-- C2: on a freshly constructed loss unit, `backward()` fails — but with
the AttributeError raised at `N, T = self.label.shape` (the label is
still `None`), not with the missing-forward-state ValueError: that guard
sits after the attribute access and is never reached.  Whenever a
`forward` preceded it, `backward` succeeds. -/
theorem c2_backward_before_forward_wrong_error :
    temporal_softmax_loss.backward (temporal_softmax_loss.mkState true) =
      Except.error TslError.noneShape
    ∧ TslError.noneShape ≠ TslError.noForward
    ∧ (∀ (da : Bool) (feat : List (List (List ℝ))) (label : List (List ℕ))
        (mask : List (List ℝ)),
        exceptOk (temporal_softmax_loss.backward
          (temporal_softmax_loss.forward (temporal_softmax_loss.mkState da)
            feat label mask).2) = true) := by
  refine ⟨rfl, by decide, ?_⟩
  intro da feat label mask
  rfl

theorem sigmoid_eq_logistic (x : ℝ) : sigmoid x = logistic x := by
  unfold sigmoid logistic
  split_ifs with h
  · rfl
  · have h3 : Real.exp x * Real.exp (-x) = 1 := by
      rw [← Real.exp_add, add_neg_cancel, Real.exp_zero]
    rw [div_eq_div_iff (by positivity) (by positivity), mul_add, mul_one, h3, one_mul]
    ring

/-- C4: `LSTM.step_forward` computes `A = x·Wx + prev_h·Wh + b`, slices it
into four `H`-wide blocks in gate order `[input, forget, output,
new-memory]`, takes the (plain logistic) sigmoid of the first three and
`tanh` of the fourth, returns `next_c = f*prev_c + i*g` and
`next_h = o*tanh(next_c)`, and stores exactly
`(x, prev_h, next_h, prev_c, i, f, next_c, o, g)` in meta. -/
theorem c4_lstm_step_forward_spec {N D H : ℕ} (Wx : Matrix (Fin D) (Fin (4 * H)) ℝ)
    (Wh : Matrix (Fin H) (Fin (4 * H)) ℝ) (b : Fin (4 * H) → ℝ)
    (x : Matrix (Fin N) (Fin D) ℝ) (prev_h prev_c : Matrix (Fin N) (Fin H) ℝ) :
    LSTM.step_forward Wx Wh b x prev_h prev_c =
      (let A := lstm_A Wx Wh b x prev_h
       let i_t := mapMat logistic (gateSlice 0 (by omega) A)
       let f_t := mapMat logistic (gateSlice 1 (by omega) A)
       let o_t := mapMat logistic (gateSlice 2 (by omega) A)
       let g_t := mapMat Real.tanh (gateSlice 3 (by omega) A)
       let c_t : Matrix (Fin N) (Fin H) ℝ :=
         fun n j => f_t n j * prev_c n j + i_t n j * g_t n j
       { next_h := fun n j => o_t n j * Real.tanh (c_t n j)
         next_c := c_t
         meta := { x := x, prev_h := prev_h,
                   next_h := fun n j => o_t n j * Real.tanh (c_t n j),
                   prev_c := prev_c, i := i_t, f := f_t, next_c := c_t,
                   o := o_t, g := g_t } }) := by
  have hsig : sigmoid = logistic := funext sigmoid_eq_logistic
  simp only [LSTM.step_forward, hsig]

/-- C9: the transpose-of-transpose weight gradient of
`temporal_fc.backward` — `(dout_flatᵀ · x_flat)ᵀ` — equals
`x_flatᵀ · dout_flat` computed directly on the flattened tensors. -/
theorem c9_temporal_fc_dw_eq {N T D M : ℕ} (w : Matrix (Fin D) (Fin M) ℝ)
    (x : Fin N → Fin T → Fin D → ℝ) (dout : Fin N → Fin T → Fin M → ℝ) :
    (temporal_fc.backward w x dout).dw = (tfc_flatten x)ᵀ * tfc_flatten dout := by
  show ((tfc_flatten dout)ᵀ * tfc_flatten x)ᵀ = _
  rw [Matrix.transpose_mul, Matrix.transpose_transpose]

theorem scatter_add_apply {Vc Dd : ℕ} (pairs : List (Fin Vc × (Fin Dd → ℝ))) :
    ∀ (tbl : Fin Vc → Fin Dd → ℝ) (v : Fin Vc),
    scatter_add tbl pairs v = tbl v + ((pairs.filter (fun p => p.1 = v)).map Prod.snd).sum := by
  induction pairs with
  | nil => intro tbl v; simp [scatter_add]
  | cons hd tl ih =>
    intro tbl v
    have hcons : scatter_add tbl (hd :: tl) =
        scatter_add (Function.update tbl hd.1 (tbl hd.1 + hd.2)) tl := rfl
    rw [hcons, ih]
    by_cases hv : hd.1 = v
    · subst hv
      simp [Function.update_same, List.filter_cons, add_assoc]
    · simp [Function.update_noteq (Ne.symm hv), List.filter_cons, hv]

/-- C6: `word_embedding.backward` produces a gradient table that is zero
at every index not occurring in `x`, and at every index `v` holds the
sum of the upstream `dout` rows at the positions where `x` equals `v`
(scatter-add: repeated indices accumulate rather than overwrite). -/
theorem c6_word_embedding_backward_spec {Vc Dd : ℕ} (x : List (List (Fin Vc)))
    (dout : List (List (Fin Dd → ℝ))) :
    (∀ v : Fin Vc, v ∉ x.flatten → word_embedding.backward x dout v = 0)
    ∧ (∀ v : Fin Vc, word_embedding.backward x dout v =
        (((x.flatten.zip dout.flatten).filter (fun p => p.1 = v)).map Prod.snd).sum) := by
  have hmain : ∀ v : Fin Vc, word_embedding.backward x dout v =
      (((x.flatten.zip dout.flatten).filter (fun p => p.1 = v)).map Prod.snd).sum := by
    intro v
    rw [word_embedding.backward, scatter_add_apply]
    show (0 : Fin Dd → ℝ) + _ = _
    rw [zero_add]
  refine ⟨?_, hmain⟩
  intro v hv
  rw [hmain v]
  have hnil : (x.flatten.zip dout.flatten).filter (fun p => p.1 = v) = [] := by
    rw [List.filter_eq_nil_iff]
    intro p hp
    have := (List.of_mem_zip hp).1
    simp only [decide_eq_true_eq]
    intro hpv
    exact hv (hpv ▸ this)
  rw [hnil]
  rfl

theorem sum_map_div (l : List ℝ) (f : ℝ → ℝ) (c : ℝ) :
    (l.map (fun a => f a / c)).sum = (l.map f).sum / c := by
  induction l with
  | nil => simp
  | cons a t ih => simp [ih, add_div]

theorem softmaxRow_getD (row : List ℝ) (lab : ℕ) (hlab : lab < row.length) :
    (softmaxRow row).getD lab 0 = plainSoftmaxProb row lab := by
  have hpos : ∀ y ∈ row.map Real.exp, 0 < y := by
    intro y hy
    obtain ⟨a, _, rfl⟩ := List.mem_map.mp hy
    exact Real.exp_pos a
  have hne : row ≠ [] := List.ne_nil_of_length_pos (by omega)
  have hsumpos : 0 < (row.map Real.exp).sum :=
    List.sum_pos _ hpos (by simpa using hne)
  have hM : Real.exp (rowMax row) ≠ 0 := (Real.exp_pos _).ne'
  have hfac : (row.map (fun a => Real.exp (a - rowMax row))) =
      row.map (fun a => Real.exp a / Real.exp (rowMax row)) := by
    apply List.map_congr_left
    intro a _
    rw [Real.exp_sub]
  have hsum : (row.map (fun a => Real.exp (a - rowMax row))).sum =
      (row.map Real.exp).sum / Real.exp (rowMax row) := by
    rw [hfac, sum_map_div]
  have hlen : lab < (row.map (fun a => Real.exp (a - rowMax row))).length := by
    simpa using hlab
  rw [softmaxRow]
  rw [List.getD_eq_getElem _ _ (by simpa using hlab)]
  rw [List.getElem_map, List.getElem_map, hsum]
  rw [plainSoftmaxProb, List.getD_eq_getElem _ _ hlab]
  rw [Real.exp_sub]
  rw [div_div_div_cancel_right₀ hM]

theorem tsl_flat_sum (rows : List (List ℝ)) :
    ∀ (labs : List ℕ) (ms : List ℝ),
    (∀ m ∈ ms, m = 0 ∨ m = 1) →
    (∀ pr ∈ rows.zip labs, pr.2 < pr.1.length) →
    (List.zipWith (fun m lg => m * lg) ms
      (List.zipWith (fun (row : List ℝ) (lab : ℕ) =>
        Real.log ((softmaxRow row).getD lab 0)) rows labs)).sum
    = ((((rows.zip labs).zip ms).filter (fun p => decide (p.2 = (1 : ℝ)))).map
        (fun p => Real.log (plainSoftmaxProb p.1.1 p.1.2))).sum := by
  induction rows with
  | nil => intro labs ms _ _; simp
  | cons row rows' ih =>
    intro labs ms hm hin
    rcases labs with _ | ⟨lab, labs'⟩
    · simp
    rcases ms with _ | ⟨m, ms'⟩
    · simp
    have hlab : lab < row.length := by
      have := hin (row, lab) (by simp)
      simpa using this
    have hrest := ih labs' ms' (fun mm hmm => hm mm (by simp [hmm]))
      (fun pr hpr => hin pr (by simp [hpr]))
    simp only [List.zipWith_cons_cons, List.sum_cons, List.zip_cons_cons, List.filter_cons]
    rw [softmaxRow_getD row lab hlab, hrest]
    rcases hm m (by simp) with hm0 | hm1
    · subst hm0
      norm_num
    · subst hm1
      norm_num

/-- C3: with `dim_average` on, the temporal softmax loss `forward` returns
the negative sum, over the masked-in positions of the flattened batch
and time axes, of the log of the softmax probability of the true class,
divided by the batch size `N` (`feat.length`, not `N*T`); the
numerically stable shifted softmax of the source equals the plain
softmax. -/
theorem c3_tsl_forward_loss (feat : List (List (List ℝ))) (label : List (List ℕ))
    (mask : List (List ℝ))
    (hm : ∀ m ∈ mask.flatten, m = 0 ∨ m = 1)
    (hl : ∀ pr ∈ feat.flatten.zip label.flatten, pr.2 < pr.1.length) :
    (temporal_softmax_loss.forward (temporal_softmax_loss.mkState true) feat label mask).1
      = -(maskedLogSum feat label mask) / (feat.length : ℝ) := by
  have hflat := tsl_flat_sum feat.flatten label.flatten mask.flatten hm hl
  unfold temporal_softmax_loss.forward
  simp only [temporal_softmax_loss.mkState, List.zipWith_map_left, if_true]
  rw [hflat, maskedLogSum]

/-- C3 (witness): on `N=1, T=1`, `feat=[[0,0]]`, `label=[[0]]` and an
all-ones mask, the loss equals `ln 2`. -/
theorem c3_tsl_forward_loss_witness :
    (temporal_softmax_loss.forward (temporal_softmax_loss.mkState true)
      [[[0, 0]]] [[0]] [[1]]).1 = Real.log 2 := by
  have hm : ∀ m ∈ ([[1]] : List (List ℝ)).flatten, m = 0 ∨ m = 1 := by
    intro m hmm
    simp at hmm
    right
    exact hmm
  have hl : ∀ pr ∈ ([[[0, 0]]] : List (List (List ℝ))).flatten.zip
      ([[0]] : List (List ℕ)).flatten, pr.2 < pr.1.length := by
    intro pr hpr
    simp at hpr
    rw [hpr]
    norm_num
  have h := c3_tsl_forward_loss [[[0, 0]]] [[0]] [[1]] hm hl
  rw [h, maskedLogSum]
  simp only [List.flatten, List.append_nil, List.zip_cons_cons, List.zip_nil_right,
    List.filter_cons]
  norm_num [plainSoftmaxProb]
  rw [one_div, Real.log_inv, neg_neg]

theorem rnn_delta_last {N D H : ℕ} (Wx : Matrix (Fin D) (Fin H) ℝ)
    (Wh : Matrix (Fin H) (Fin H) ℝ) (dh : ℕ → Matrix (Fin N) (Fin H) ℝ)
    (metas : ℕ → RnnMeta N D H) (K : ℕ) :
    rnn_delta Wx Wh dh metas K K = dh K := by
  rw [rnn_delta, Nat.sub_self, rnn_delta_aux]

theorem rnn_delta_rec {N D H : ℕ} (Wx : Matrix (Fin D) (Fin H) ℝ)
    (Wh : Matrix (Fin H) (Fin H) ℝ) (dh : ℕ → Matrix (Fin N) (Fin H) ℝ)
    (metas : ℕ → RnnMeta N D H) (K : ℕ) (t : ℕ) (ht : t < K) :
    rnn_delta Wx Wh dh metas K t = dh t +
      (rnn_step_backward Wx Wh (rnn_delta Wx Wh dh metas K (t + 1)) (metas (t + 1))).dprev_h := by
  obtain ⟨g, hg⟩ : ∃ g, K - t = g + 1 := ⟨K - t - 1, by omega⟩
  rw [rnn_delta, hg, rnn_delta_aux]
  have h1 : K - (g + 1) = t := by omega
  have h2 : K - g = t + 1 := by omega
  have h3 : K - (t + 1) = g := by omega
  rw [h1, h2, rnn_delta, h3]

theorem rnn_back_loop_spec {N D H : ℕ} (Wx : Matrix (Fin D) (Fin H) ℝ)
    (Wh : Matrix (Fin H) (Fin H) ℝ) (dh : ℕ → Matrix (Fin N) (Fin H) ℝ)
    (metas : ℕ → RnnMeta N D H) (K : ℕ) :
    ∀ i : ℕ, i ≤ K → ∀ acc : RnnBackAcc N D H,
    acc.dnext_h = rnn_delta Wx Wh dh metas K i →
    (rnn_back_loop Wx Wh dh metas i acc).dh0 =
        (rnn_step_backward Wx Wh (rnn_delta Wx Wh dh metas K 0) (metas 0)).dprev_h
    ∧ (∀ t : ℕ, (rnn_back_loop Wx Wh dh metas i acc).dx t =
        if t ≤ i then (rnn_step_backward Wx Wh (rnn_delta Wx Wh dh metas K t) (metas t)).dx
        else acc.dx t)
    ∧ (rnn_back_loop Wx Wh dh metas i acc).dWx =
        acc.dWx + ∑ t in Finset.range (i + 1),
          (rnn_step_backward Wx Wh (rnn_delta Wx Wh dh metas K t) (metas t)).dWx
    ∧ (rnn_back_loop Wx Wh dh metas i acc).dWh =
        acc.dWh + ∑ t in Finset.range (i + 1),
          (rnn_step_backward Wx Wh (rnn_delta Wx Wh dh metas K t) (metas t)).dWh
    ∧ (rnn_back_loop Wx Wh dh metas i acc).db =
        acc.db + ∑ t in Finset.range (i + 1),
          (rnn_step_backward Wx Wh (rnn_delta Wx Wh dh metas K t) (metas t)).db := by
  intro i
  induction i with
  | zero =>
    intro _ acc hacc
    simp only [rnn_back_loop, rnn_back_step, if_pos rfl, hacc]
    refine ⟨rfl, ?_, ?_, ?_, ?_⟩
    · intro t
      rw [Function.update_apply]
      by_cases ht : t = 0
      · subst ht
        simp
      · rw [if_neg ht, if_neg (by omega)]
    · simp [Finset.sum_range_one]
    · simp [Finset.sum_range_one]
    · simp [Finset.sum_range_one]
  | succ i ih =>
    intro hiK acc hacc
    have hstep : (rnn_back_step Wx Wh dh metas (i + 1) acc).dnext_h =
        rnn_delta Wx Wh dh metas K i := by
      simp only [rnn_back_step, hacc]
      rw [if_neg (Nat.succ_ne_zero i)]
      rw [rnn_delta_rec Wx Wh dh metas K i (by omega)]
      simp [add_comm]
    have ih' := ih (by omega) (rnn_back_step Wx Wh dh metas (i + 1) acc) hstep
    have hloop : rnn_back_loop Wx Wh dh metas (i + 1) acc =
        rnn_back_loop Wx Wh dh metas i (rnn_back_step Wx Wh dh metas (i + 1) acc) := rfl
    rw [hloop]
    refine ⟨ih'.1, ?_, ?_, ?_, ?_⟩
    · intro t
      rw [ih'.2.1 t]
      by_cases hti : t ≤ i
      · rw [if_pos hti, if_pos (by omega)]
      · by_cases hti1 : t = i + 1
        · subst hti1
          rw [if_neg hti, if_pos le_rfl]
          simp only [rnn_back_step, Function.update_same, hacc]
        · rw [if_neg hti, if_neg (by omega)]
          simp only [rnn_back_step]
          rw [Function.update_noteq hti1]
    · rw [ih'.2.2.1]
      simp only [rnn_back_step, hacc]
      rw [Finset.sum_range_succ (fun t => (rnn_step_backward Wx Wh (rnn_delta Wx Wh dh metas K t) (metas t)).dWx) (i + 1)]
      abel
    · rw [ih'.2.2.2.1]
      simp only [rnn_back_step, hacc]
      rw [Finset.sum_range_succ (fun t => (rnn_step_backward Wx Wh (rnn_delta Wx Wh dh metas K t) (metas t)).dWh) (i + 1)]
      abel
    · rw [ih'.2.2.2.2]
      simp only [rnn_back_step, hacc]
      rw [Finset.sum_range_succ (fun t => (rnn_step_backward Wx Wh (rnn_delta Wx Wh dh metas K t) (metas t)).db) (i + 1)]
      abel

/-- C5: over `T = K + 1` timesteps following a `VanillaRNN.forward`,
`backward` iterates timesteps in reverse; the incoming hidden-state
gradient is exactly `dh[:, K, :]` at the last step and `dh` at the step
plus the recurrent gradient from the step above at every earlier step;
`dx` at each timestep is the step gradient for that incoming gradient,
`dh0` is the recurrent gradient reaching before timestep 0, and `dWx`,
`dWh`, `db` are the sums of the per-timestep gradients over all
timesteps. -/
theorem c5_vanilla_rnn_backward_spec {N D H : ℕ} (Wx : Matrix (Fin D) (Fin H) ℝ)
    (Wh : Matrix (Fin H) (Fin H) ℝ) (b : Fin H → ℝ)
    (x : ℕ → Matrix (Fin N) (Fin D) ℝ) (h0 : Matrix (Fin N) (Fin H) ℝ)
    (dh : ℕ → Matrix (Fin N) (Fin H) ℝ) (K : ℕ) :
    rnn_delta Wx Wh dh (rnn_metas Wx Wh b x h0) K K = dh K
    ∧ (∀ t : ℕ, t < K → rnn_delta Wx Wh dh (rnn_metas Wx Wh b x h0) K t =
        dh t + (rnn_step_backward Wx Wh
          (rnn_delta Wx Wh dh (rnn_metas Wx Wh b x h0) K (t + 1))
          (rnn_metas Wx Wh b x h0 (t + 1))).dprev_h)
    ∧ (∀ t : ℕ, t ≤ K → (rnn_backward Wx Wh dh (rnn_metas Wx Wh b x h0) K).dx t =
        (rnn_step_backward Wx Wh (rnn_delta Wx Wh dh (rnn_metas Wx Wh b x h0) K t)
          (rnn_metas Wx Wh b x h0 t)).dx)
    ∧ (rnn_backward Wx Wh dh (rnn_metas Wx Wh b x h0) K).dh0 =
        (rnn_step_backward Wx Wh (rnn_delta Wx Wh dh (rnn_metas Wx Wh b x h0) K 0)
          (rnn_metas Wx Wh b x h0 0)).dprev_h
    ∧ (rnn_backward Wx Wh dh (rnn_metas Wx Wh b x h0) K).dWx =
        ∑ t in Finset.range (K + 1), (rnn_step_backward Wx Wh
          (rnn_delta Wx Wh dh (rnn_metas Wx Wh b x h0) K t) (rnn_metas Wx Wh b x h0 t)).dWx
    ∧ (rnn_backward Wx Wh dh (rnn_metas Wx Wh b x h0) K).dWh =
        ∑ t in Finset.range (K + 1), (rnn_step_backward Wx Wh
          (rnn_delta Wx Wh dh (rnn_metas Wx Wh b x h0) K t) (rnn_metas Wx Wh b x h0 t)).dWh
    ∧ (rnn_backward Wx Wh dh (rnn_metas Wx Wh b x h0) K).db =
        ∑ t in Finset.range (K + 1), (rnn_step_backward Wx Wh
          (rnn_delta Wx Wh dh (rnn_metas Wx Wh b x h0) K t) (rnn_metas Wx Wh b x h0 t)).db := by
  have hmain := rnn_back_loop_spec Wx Wh dh (rnn_metas Wx Wh b x h0) K K le_rfl
    { dx := fun _ => 0, dh0 := 0, dWx := 0, dWh := 0, db := 0, dnext_h := dh K }
    (by rw [rnn_delta_last])
  have hb : rnn_backward Wx Wh dh (rnn_metas Wx Wh b x h0) K =
      rnn_back_loop Wx Wh dh (rnn_metas Wx Wh b x h0) K
        { dx := fun _ => 0, dh0 := 0, dWx := 0, dWh := 0, db := 0, dnext_h := dh K } := rfl
  refine ⟨rnn_delta_last Wx Wh dh (rnn_metas Wx Wh b x h0) K,
    fun t ht => rnn_delta_rec Wx Wh dh (rnn_metas Wx Wh b x h0) K t ht, ?_, ?_, ?_, ?_, ?_⟩
  · intro t ht
    rw [hb, hmain.2.1 t, if_pos ht]
  · rw [hb, hmain.1]
  · rw [hb, hmain.2.2.1, zero_add]
  · rw [hb, hmain.2.2.2.1, zero_add]
  · rw [hb, hmain.2.2.2.2, zero_add]

theorem string_eq_of_data {a b : String} (h : a.data = b.data) : a = b := by
  cases a
  cases b
  exact congrArg String.mk h

theorem libSuffixes_cases {s : String} (h : s ∈ libSuffixes) :
    s = "_wx" ∨ s = "_wh" ∨ s = "_b" ∨ s = "_w" := by
  simpa [libSuffixes] using h

/-- The four parameter-name suffixes end in four distinct characters, so
appending any two of them can only produce equal strings from equal
prefixes and equal suffixes. -/
theorem string_suffix_cancel {a b s1 s2 : String}
    (h1 : s1 ∈ libSuffixes) (h2 : s2 ∈ libSuffixes) (h : a ++ s1 = b ++ s2) :
    a = b ∧ s1 = s2 := by
  have h1' := libSuffixes_cases h1
  have h2' := libSuffixes_cases h2
  have hd : a.data ++ s1.data = b.data ++ s2.data := by
    rw [← String.data_append, ← String.data_append, h]
  have hne1 : s1.data ≠ [] := by rcases h1' with rfl | rfl | rfl | rfl <;> decide
  have hne2 : s2.data ≠ [] := by rcases h2' with rfl | rfl | rfl | rfl <;> decide
  have hlast : s1.data.getLast? = s2.data.getLast? := by
    rw [← List.getLast?_append_of_ne_nil a.data hne1, hd,
      List.getLast?_append_of_ne_nil b.data hne2]
  have hs : s1 = s2 := by
    rcases h1' with rfl | rfl | rfl | rfl <;> rcases h2' with rfl | rfl | rfl | rfl <;>
      first
        | rfl
        | exact absurd hlast (by decide)
  subst hs
  exact ⟨string_eq_of_data (List.append_cancel_right hd), rfl⟩

theorem isLib_cases {V : Type} {l : PLayer V} (h : IsLibLayer l) :
    (∃ nm wx wh b, l = mkVanillaRNN nm wx wh b) ∨ (∃ nm w, l = mkWordEmbedding nm w) ∨
    (∃ nm w b, l = mkTemporalFC nm w b) := by
  rcases h with h | h | h | h
  · exact Or.inl h
  · exact Or.inl (by simpa [mkLSTM] using h)
  · exact Or.inr (Or.inl h)
  · exact Or.inr (Or.inr h)

theorem paramKeys_isLib {V : Type} {l : PLayer V} (h : IsLibLayer l) :
    (∃ ps gs, l.params = some ps ∧ l.grads = some gs ∧ (∀ nv ∈ ps, nv.2.isSome = true)
      ∧ keysOf ps = paramKeys l)
    ∧ (∀ k ∈ paramKeys l, ∃ s, s ∈ libSuffixes ∧ k = l.name ++ s)
    ∧ (paramKeys l).Nodup := by
  have hne : ∀ (nm s1 s2 : String), s1 ∈ libSuffixes → s2 ∈ libSuffixes → s1 ≠ s2 →
      nm ++ s1 ≠ nm ++ s2 :=
    fun nm s1 s2 hs1 hs2 hss hh => hss (string_suffix_cancel hs1 hs2 hh).2
  have hwx : ("_wx" : String) ∈ libSuffixes := by simp [libSuffixes]
  have hwh : ("_wh" : String) ∈ libSuffixes := by simp [libSuffixes]
  have hb : ("_b" : String) ∈ libSuffixes := by simp [libSuffixes]
  have hw : ("_w" : String) ∈ libSuffixes := by simp [libSuffixes]
  rcases isLib_cases h with ⟨nm, wx, wh, bb, rfl⟩ | ⟨nm, w, rfl⟩ | ⟨nm, w, bb, rfl⟩
  · have hp : paramKeys (mkVanillaRNN nm wx wh bb) =
        [nm ++ "_wx", nm ++ "_wh", nm ++ "_b"] := rfl
    refine ⟨⟨_, _, rfl, rfl, ?_, rfl⟩, ?_, ?_⟩
    · intro nv hnv
      simp only [mkVanillaRNN, List.mem_cons, List.not_mem_nil, or_false] at hnv
      rcases hnv with rfl | rfl | rfl <;> rfl
    · intro k hk
      rw [hp] at hk
      simp only [List.mem_cons, List.not_mem_nil, or_false] at hk
      rcases hk with rfl | rfl | rfl
      · exact ⟨"_wx", hwx, rfl⟩
      · exact ⟨"_wh", hwh, rfl⟩
      · exact ⟨"_b", hb, rfl⟩
    · rw [hp]
      refine List.nodup_cons.mpr ⟨?_, List.nodup_cons.mpr ⟨?_, List.nodup_singleton _⟩⟩
      · intro hmem
        simp only [List.mem_cons, List.not_mem_nil, or_false] at hmem
        rcases hmem with hh | hh
        · exact hne nm _ _ hwx hwh (by decide) hh
        · exact hne nm _ _ hwx hb (by decide) hh
      · intro hmem
        simp only [List.mem_singleton] at hmem
        exact hne nm _ _ hwh hb (by decide) hmem
  · refine ⟨⟨_, _, rfl, rfl, ?_, rfl⟩, ?_, ?_⟩
    · intro nv hnv
      simp only [mkWordEmbedding, List.mem_cons, List.not_mem_nil, or_false] at hnv
      rcases hnv with rfl
      rfl
    · intro k hk
      have hp : paramKeys (mkWordEmbedding nm w) = [nm ++ "_w"] := rfl
      rw [hp] at hk
      simp only [List.mem_cons, List.not_mem_nil, or_false] at hk
      rcases hk with rfl
      exact ⟨"_w", hw, rfl⟩
    · exact List.nodup_singleton _
  · have hp : paramKeys (mkTemporalFC nm w bb) = [nm ++ "_w", nm ++ "_b"] := rfl
    refine ⟨⟨_, _, rfl, rfl, ?_, rfl⟩, ?_, ?_⟩
    · intro nv hnv
      simp only [mkTemporalFC, List.mem_cons, List.not_mem_nil, or_false] at hnv
      rcases hnv with rfl | rfl <;> rfl
    · intro k hk
      rw [hp] at hk
      simp only [List.mem_cons, List.not_mem_nil, or_false] at hk
      rcases hk with rfl | rfl
      · exact ⟨"_w", hw, rfl⟩
      · exact ⟨"_b", hb, rfl⟩
    · rw [hp]
      refine List.nodup_cons.mpr ⟨?_, List.nodup_singleton _⟩
      intro hmem
      simp only [List.mem_singleton] at hmem
      exact hne nm _ _ hw hb (by decide) hmem

theorem initFold_components {V : Type} :
    ∀ (ps : List (String × Option V)) (a : RNNState V),
    (∀ nv ∈ ps, nv.2.isSome = true) →
    ((ps.foldl (fun (a : RNNState V) (nv : String × Option V) =>
      match nv.2 with
      | none => a
      | some _ =>
        { a with
          params := dictSet a.params nv.1 nv.2
          paramName2Indices := dictSet a.paramName2Indices nv.1 a.layers.length }) a).layers
        = a.layers
     ∧ (ps.foldl (fun (a : RNNState V) (nv : String × Option V) =>
      match nv.2 with
      | none => a
      | some _ =>
        { a with
          params := dictSet a.params nv.1 nv.2
          paramName2Indices := dictSet a.paramName2Indices nv.1 a.layers.length }) a).layer_names
        = a.layer_names
     ∧ (ps.foldl (fun (a : RNNState V) (nv : String × Option V) =>
      match nv.2 with
      | none => a
      | some _ =>
        { a with
          params := dictSet a.params nv.1 nv.2
          paramName2Indices := dictSet a.paramName2Indices nv.1 a.layers.length }) a).grads
        = a.grads
     ∧ (ps.foldl (fun (a : RNNState V) (nv : String × Option V) =>
      match nv.2 with
      | none => a
      | some _ =>
        { a with
          params := dictSet a.params nv.1 nv.2
          paramName2Indices := dictSet a.paramName2Indices nv.1 a.layers.length }) a).paramName2Indices
        = writeFold a.paramName2Indices (ps.map (fun nv => (nv.1, a.layers.length)))) := by
  intro ps
  induction ps with
  | nil =>
    intro a _
    exact ⟨rfl, rfl, rfl, rfl⟩
  | cons nv ps' ih =>
    intro a hsome
    obtain ⟨w, hw⟩ := Option.isSome_iff_exists.mp (hsome nv (by simp))
    have hstep := ih { a with
        params := dictSet a.params nv.1 nv.2
        paramName2Indices := dictSet a.paramName2Indices nv.1 a.layers.length }
      (fun nv' hnv' => hsome nv' (by simp [hnv']))
    rw [hw] at hstep
    simp only [List.foldl_cons, hw]
    refine ⟨hstep.1, hstep.2.1, hstep.2.2.1, ?_⟩
    rw [List.map_cons, writeFold_cons]
    exact hstep.2.2.2

theorem initStep_ok {V : Type} (acc : RNNState V) (l : PLayer V)
    (ps gs : List (String × Option V)) (hps : l.params = some ps) (hgs : l.grads = some gs)
    (hname : l.name ∉ acc.layer_names) (hsome : ∀ nv ∈ ps, nv.2.isSome = true) :
    ∃ acc', initStep acc l = .ok acc'
      ∧ acc'.layers = acc.layers ++ [l]
      ∧ acc'.layer_names = acc.layer_names ++ [l.name]
      ∧ acc'.paramName2Indices =
          writeFold acc.paramName2Indices (ps.map (fun nv => (nv.1, acc.layers.length))) := by
  have hc := initFold_components ps acc hsome
  set F := ps.foldl (fun (a : RNNState V) (nv : String × Option V) =>
      match nv.2 with
      | none => a
      | some _ =>
        { a with
          params := dictSet a.params nv.1 nv.2
          paramName2Indices := dictSet a.paramName2Indices nv.1 a.layers.length }) acc with hF
  have hstep : initStep acc l = .ok { F with
      grads := gs.foldl (fun g (nv : String × Option V) => dictSet g nv.1 nv.2) F.grads
      layer_names := F.layer_names ++ [l.name]
      layers := F.layers ++ [l] } := by
    simp only [initStep, hps, hgs, if_neg hname]
  refine ⟨_, hstep, ?_, ?_, ?_⟩
  · show F.layers ++ [l] = acc.layers ++ [l]
    rw [hc.1]
  · show F.layer_names ++ [l.name] = acc.layer_names ++ [l.name]
    rw [hc.2.1]
  · exact hc.2.2.2

theorem initStep_err {V : Type} (acc : RNNState V) (l : PLayer V)
    (ps gs : List (String × Option V)) (hps : l.params = some ps) (hgs : l.grads = some gs)
    (hname : l.name ∈ acc.layer_names) :
    initStep acc l = .error (.duplicateName l.name) := by
  simp only [initStep, hps, hgs, if_pos hname]

theorem pn2iAux_append {V : Type} :
    ∀ (A B : List (PLayer V)) (base : ℕ),
    pn2iAux base (A ++ B) = pn2iAux base A ++ pn2iAux (base + A.length) B := by
  intro A
  induction A with
  | nil => intro B base; simp [pn2iAux]
  | cons l A' ih =>
    intro B base
    show (paramKeys l).map (fun k => (k, base)) ++ pn2iAux (base + 1) (A' ++ B) =
      (paramKeys l).map (fun k => (k, base)) ++ pn2iAux (base + 1) A' ++
        pn2iAux (base + (A'.length + 1)) B
    rw [ih B (base + 1), List.append_assoc]
    have harith : base + 1 + A'.length = base + (A'.length + 1) := by omega
    rw [harith]

theorem keysOf_map_const (keys : List String) (base : ℕ) :
    keysOf (keys.map (fun k0 => (k0, base))) = keys := by
  simp only [keysOf, List.map_map]
  have h : (Prod.fst ∘ fun k0 : String => (k0, base)) = id := rfl
  rw [h, List.map_id]

theorem keysOf_pn2iAux {V : Type} :
    ∀ (ls : List (PLayer V)) (base : ℕ),
    keysOf (pn2iAux base ls) = (ls.map paramKeys).flatten := by
  intro ls
  induction ls with
  | nil => intro base; simp [pn2iAux, keysOf]
  | cons l rest ih =>
    intro base
    show keysOf ((paramKeys l).map (fun k => (k, base)) ++ pn2iAux (base + 1) rest) =
      paramKeys l ++ (rest.map paramKeys).flatten
    simp only [keysOf, List.map_append]
    rw [← keysOf, ← keysOf, keysOf_map_const, ih]

theorem dictGet_map_const_of_mem (keys : List String) (base : ℕ) (k : String)
    (hk : k ∈ keys) : dictGet (keys.map (fun k0 => (k0, base))) k = some base := by
  induction keys with
  | nil => simp at hk
  | cons k0 rest ih =>
    by_cases h : k0 = k
    · simp [dictGet, h]
    · rcases List.mem_cons.mp hk with h' | h'
      · exact absurd h'.symm h
      · simp [dictGet, h, ih h']

theorem dictGet_pn2iAux {V : Type} :
    ∀ (ls : List (PLayer V)) (base i : ℕ) (l : PLayer V) (k : String),
    ls.get? i = some l → k ∈ paramKeys l →
    (∀ (j : ℕ) (lj : PLayer V), j < i → ls.get? j = some lj → k ∉ paramKeys lj) →
    dictGet (pn2iAux base ls) k = some (base + i) := by
  intro ls
  induction ls with
  | nil =>
    intro base i l k hi
    simp at hi
  | cons l0 rest ih =>
    intro base i l k hi hk hnot
    show dictGet ((paramKeys l0).map (fun k0 => (k0, base)) ++ pn2iAux (base + 1) rest) k = _
    rw [dictGet_append]
    rcases i with _ | j
    · have hl : l0 = l := by simpa using hi
      subst hl
      rw [dictGet_map_const_of_mem (paramKeys l0) base k hk]
      rfl
    · have hk0 : k ∉ paramKeys l0 := hnot 0 l0 (by omega) rfl
      have hnone : dictGet ((paramKeys l0).map (fun k0 => (k0, base))) k = none := by
        rw [dictGet_eq_none_iff, keysOf_map_const]
        exact hk0
      rw [hnone]
      have hrec := ih (base + 1) j l k (by simpa using hi) hk
        (fun j' lj hj' hj'' => hnot (j' + 1) lj (by omega) (by simpa using hj''))
      simp only [Option.elim]
      rw [hrec]
      congr 1
      omega

theorem keysOf_map_fst_pair {V : Type} (ps : List (String × Option V)) (c : ℕ) :
    keysOf (ps.map (fun nv => (nv.1, c))) = keysOf ps := by
  simp [keysOf, List.map_map]

theorem initGo_ok {V : Type} :
    ∀ (rest done : List (PLayer V)) (acc : RNNState V),
    (∀ l ∈ done ++ rest, IsLibLayer l) →
    acc.layers = done →
    acc.layer_names = done.map (fun l => l.name) →
    acc.paramName2Indices = pn2iAux 0 done →
    ((done ++ rest).map (fun l => l.name)).Nodup →
    ∃ s, RNN.initGo acc rest = .ok s
      ∧ s.layers = done ++ rest
      ∧ s.layer_names = (done ++ rest).map (fun l => l.name)
      ∧ s.paramName2Indices = pn2iAux 0 (done ++ rest) := by
  intro rest
  induction rest with
  | nil =>
    intro done acc _ h1 h2 h3 _
    exact ⟨acc, rfl, by simpa using h1, by simpa using h2, by simpa using h3⟩
  | cons l rest' ih =>
    intro done acc hlib hlayers hnames hpn2i hnd
    have hlibl : IsLibLayer l := hlib l (by simp)
    obtain ⟨⟨ps, gs, hps, hgs, hsome, hkeys⟩, hmem, hnodk⟩ := paramKeys_isLib hlibl
    have hnd' : ((done.map (fun l => l.name)) ++
        (l.name :: rest'.map (fun l => l.name))).Nodup := by
      simpa using hnd
    have hnameFresh : l.name ∉ done.map (fun l => l.name) := by
      intro hmm
      exact (List.nodup_append.mp hnd').2.2 hmm (by simp)
    have hfreshKeys : ∀ k ∈ keysOf ps, k ∉ keysOf acc.paramName2Indices := by
      intro k hkps hkacc
      rw [hpn2i, keysOf_pn2iAux] at hkacc
      obtain ⟨kl, hklmem, hkin⟩ := List.mem_flatten.mp hkacc
      obtain ⟨l', hl'mem, rfl⟩ := List.mem_map.mp hklmem
      have hk_l : k ∈ paramKeys l := by rw [← hkeys]; exact hkps
      obtain ⟨s1, hs1, hk1⟩ := hmem k hk_l
      obtain ⟨s2, hs2, hk2⟩ :=
        (paramKeys_isLib (hlib l' (by simp [hl'mem]))).2.1 k hkin
      have heq : l.name ++ s1 = l'.name ++ s2 := by rw [← hk1, ← hk2]
      have hname_eq := (string_suffix_cancel hs1 hs2 heq).1
      exact hnameFresh (hname_eq ▸ List.mem_map_of_mem (fun l => l.name) hl'mem)
    obtain ⟨acc', hok, hl1, hl2, hl3⟩ :=
      initStep_ok acc l ps gs hps hgs (by rw [hnames]; exact hnameFresh) hsome
    have hpk : ps.map (fun nv => (nv.1, acc.layers.length)) =
        (paramKeys l).map (fun k => (k, done.length)) := by
      rw [← hkeys, hlayers, keysOf, List.map_map]
      rfl
    have hw : acc'.paramName2Indices = pn2iAux 0 (done ++ [l]) := by
      rw [hl3, hpn2i, writeFold_eq_append, pn2iAux_append]
      · congr 1
        rw [hpk]
        show (paramKeys l).map (fun k => (k, done.length)) =
          (paramKeys l).map (fun k => (k, 0 + done.length)) ++ pn2iAux (0 + done.length + 1) []
        simp [pn2iAux]
      · intro s hs
        rw [keysOf_map_fst_pair] at hs
        rw [← hpn2i]
        exact hfreshKeys s hs
      · rw [keysOf_map_fst_pair, hkeys]
        exact hnodk
    have hgo : RNN.initGo acc (l :: rest') = RNN.initGo acc' rest' := by
      have h0 : RNN.initGo acc (l :: rest') = match initStep acc l with
        | .ok a => RNN.initGo a rest'
        | .error e => Except.error e := rfl
      rw [h0, hok]
    obtain ⟨s, hs1, hs2, hs3, hs4⟩ := ih (done ++ [l]) acc'
      (by intro l'' h''; apply hlib; simpa using h'')
      (by rw [hl1, hlayers])
      (by rw [hl2, hnames, List.map_append]; rfl)
      hw
      (by simpa using hnd)
    refine ⟨s, ?_, by simpa using hs2, by simpa using hs3, by simpa using hs4⟩
    rw [hgo, hs1]

theorem initGo_err {V : Type} :
    ∀ (rest : List (PLayer V)) (names0 : List String) (acc : RNNState V),
    (∀ l ∈ rest, IsLibLayer l) →
    acc.layer_names = names0 →
    names0.Nodup →
    ¬ (names0 ++ rest.map (fun l => l.name)).Nodup →
    ∃ nm, RNN.initGo acc rest = .error (.duplicateName nm) := by
  intro rest
  induction rest with
  | nil =>
    intro names0 acc _ _ hnd hnnd
    exact absurd (by simpa using hnd) hnnd
  | cons l rest' ih =>
    intro names0 acc hlib hnames hnd hnnd
    obtain ⟨⟨ps, gs, hps, hgs, hsome, _⟩, _, _⟩ := paramKeys_isLib (hlib l (by simp))
    by_cases hmem : l.name ∈ names0
    · refine ⟨l.name, ?_⟩
      have herr := initStep_err acc l ps gs hps hgs (by rw [hnames]; exact hmem)
      have h0 : RNN.initGo acc (l :: rest') = match initStep acc l with
        | .ok a => RNN.initGo a rest'
        | .error e => Except.error e := rfl
      rw [h0, herr]
    · obtain ⟨acc', hok, _, hl2, _⟩ :=
        initStep_ok acc l ps gs hps hgs (by rw [hnames]; exact hmem) hsome
      have h0 : RNN.initGo acc (l :: rest') = match initStep acc l with
        | .ok a => RNN.initGo a rest'
        | .error e => Except.error e := rfl
      have hgo : RNN.initGo acc (l :: rest') = RNN.initGo acc' rest' := by rw [h0, hok]
      rw [hgo]
      apply ih (names0 ++ [l.name]) acc' (fun l' h' => hlib l' (by simp [h']))
        (by rw [hl2, hnames])
      · rw [List.nodup_append]
        refine ⟨hnd, List.nodup_singleton _, ?_⟩
        intro a ha hb
        rw [List.mem_singleton] at hb
        subst hb
        exact hmem ha
      · simpa using hnnd

/-- C7: for a network built from the library's layer constructors,
construction succeeds exactly when the layer names are pairwise
distinct, fails with a duplicate-name error otherwise, and on success
the registry holds exactly one entry per parameter name, mapping it to
the index of the owning layer. -/
theorem c7_construction_registry {V : Type} (ls : List (PLayer V))
    (hlib : ∀ l ∈ ls, IsLibLayer l) :
    ((∃ s, RNN.init ls = .ok s) ↔ (ls.map (fun l => l.name)).Nodup)
    ∧ (¬ (ls.map (fun l => l.name)).Nodup →
        ∃ nm, RNN.init ls = .error (.duplicateName nm))
    ∧ ∀ s, RNN.init ls = .ok s →
        (keysOf s.paramName2Indices).Nodup
        ∧ ∀ (i : ℕ) (l : PLayer V), ls.get? i = some l →
            ∀ k ∈ paramKeys l, dictGet s.paramName2Indices k = some i := by
  have hfail : ¬ (ls.map (fun l => l.name)).Nodup →
      ∃ nm, RNN.init ls = .error (.duplicateName nm) := by
    intro hnnd
    exact initGo_err ls []
      ({ params := [], grads := [], layers := [], paramName2Indices := [],
         layer_names := [] } : RNNState V)
      hlib rfl (List.nodup_nil) (by simpa using hnnd)
  have hsucc : (ls.map (fun l => l.name)).Nodup →
      ∃ s, RNN.init ls = .ok s
        ∧ s.layers = ls
        ∧ s.layer_names = ls.map (fun l => l.name)
        ∧ s.paramName2Indices = pn2iAux 0 ls := by
    intro hnd
    obtain ⟨s, hs1, hs2, hs3, hs4⟩ := initGo_ok ls []
      ({ params := [], grads := [], layers := [], paramName2Indices := [],
         layer_names := [] } : RNNState V)
      (by simpa using hlib) rfl rfl rfl (by simpa using hnd)
    exact ⟨s, hs1, by simpa using hs2, by simpa using hs3, by simpa using hs4⟩
  have hiff : (∃ s, RNN.init ls = .ok s) ↔ (ls.map (fun l => l.name)).Nodup := by
    constructor
    · intro ⟨s, hs⟩
      by_contra hnnd
      obtain ⟨nm, herr⟩ := hfail hnnd
      rw [hs] at herr
      exact Except.noConfusion herr
    · intro hnd
      obtain ⟨s, hs, _⟩ := hsucc hnd
      exact ⟨s, hs⟩
  refine ⟨hiff, hfail, ?_⟩
  intro s hs
  have hnd : (ls.map (fun l => l.name)).Nodup := hiff.mp ⟨s, hs⟩
  obtain ⟨s', hs', _, _, hpn2i'⟩ := hsucc hnd
  have hss : s = s' := by
    rw [hs] at hs'
    exact (Except.ok.injEq _ _).mp hs'
  subst hss
  constructor
  · rw [hpn2i', keysOf_pn2iAux, List.nodup_flatten]
    constructor
    · intro keys hkeys
      obtain ⟨l, hl, rfl⟩ := List.mem_map.mp hkeys
      exact (paramKeys_isLib (hlib l hl)).2.2
    · rw [List.pairwise_map]
      have hpw : ls.Pairwise (fun a b => a.name ≠ b.name) := by
        rw [← List.pairwise_map (R := fun a b => a ≠ b)]
        exact hnd
      refine hpw.imp_of_mem ?_
      intro a b ha hb hab
      intro k hka hkb
      obtain ⟨s1, hs1, hk1⟩ := (paramKeys_isLib (hlib a ha)).2.1 k hka
      obtain ⟨s2, hs2, hk2⟩ := (paramKeys_isLib (hlib b hb)).2.1 k hkb
      have heq : a.name ++ s1 = b.name ++ s2 := by rw [← hk1, ← hk2]
      exact hab (string_suffix_cancel hs1 hs2 heq).1
  · intro i l hi hk hkmem
    rw [hpn2i']
    have hnoEarlier : ∀ (j : ℕ) (lj : PLayer V), j < i → ls.get? j = some lj →
        hk ∉ paramKeys lj := by
      intro j lj hj hjget hkj
      have hil : l ∈ ls := List.get?_mem hi
      have hjl : lj ∈ ls := List.get?_mem hjget
      obtain ⟨s1, hs1, hk1⟩ := (paramKeys_isLib (hlib l hil)).2.1 hk hkmem
      obtain ⟨s2, hs2, hk2⟩ := (paramKeys_isLib (hlib lj hjl)).2.1 hk hkj
      have heq : l.name ++ s1 = lj.name ++ s2 := by rw [← hk1, ← hk2]
      have hname_eq := (string_suffix_cancel hs1 hs2 heq).1
      have hmapi : (ls.map (fun l => l.name))[i]? = some l.name := by
        rw [List.getElem?_map, ← List.get?_eq_getElem?, hi]
        rfl
      have hmapj : (ls.map (fun l => l.name))[j]? = some lj.name := by
        rw [List.getElem?_map, ← List.get?_eq_getElem?, hjget]
        rfl
      have hij : i = j := by
        have hlen : i < (ls.map (fun l => l.name)).length := by
          rw [List.length_map]
          exact (List.get?_eq_some.mp hi).1
        apply List.getElem?_inj hlen hnd
        rw [hmapi, hmapj, hname_eq]
      omega
    have := dictGet_pn2iAux ls 0 i l hk hi hkmem hnoEarlier
    simpa using this

/-- C7 (witness): the construction invariant instantiated on a concrete
two-layer network (a word embedding and a temporal fc layer). -/
theorem c7_witness :
    ((∃ s, RNN.init [mkWordEmbedding ("we") (0 : Int), mkTemporalFC ("fc") 1 2] = .ok s) ↔
      (([mkWordEmbedding ("we") (0 : Int), mkTemporalFC ("fc") 1 2].map
        (fun l => l.name)).Nodup))
    ∧ (¬ (([mkWordEmbedding ("we") (0 : Int), mkTemporalFC ("fc") 1 2].map
        (fun l => l.name)).Nodup) →
        ∃ nm, RNN.init [mkWordEmbedding ("we") (0 : Int), mkTemporalFC ("fc") 1 2] =
          .error (.duplicateName nm))
    ∧ ∀ s, RNN.init [mkWordEmbedding ("we") (0 : Int), mkTemporalFC ("fc") 1 2] = .ok s →
        (keysOf s.paramName2Indices).Nodup
        ∧ ∀ (i : ℕ) (l : PLayer Int),
            [mkWordEmbedding ("we") (0 : Int), mkTemporalFC ("fc") 1 2].get? i = some l →
            ∀ k ∈ paramKeys l, dictGet s.paramName2Indices k = some i := by
  apply c7_construction_registry
  intro l hl
  simp only [List.mem_cons, List.not_mem_nil, or_false] at hl
  rcases hl with rfl | rfl
  · exact Or.inr (Or.inr (Or.inl ⟨"we", 0, rfl⟩))
  · exact Or.inr (Or.inr (Or.inr ⟨"fc", 1, 2, rfl⟩))

theorem getD_map {α β : Type} (f : α → β) (l : List α) (i : ℕ) (hi : i < l.length)
    (da : α) (db : β) : (l.map f).getD i db = f (l.getD i da) := by
  rw [List.getD_eq_getElem?_getD, List.getElem?_map, List.getElem?_eq_getElem hi,
    List.getD_eq_getElem?_getD, List.getElem?_eq_getElem hi]
  rfl

theorem getD_zipWith {α β γ : Type} (f : α → β → γ) (a : List α) (b : List β) (i : ℕ)
    (ha : i < a.length) (hb : i < b.length) (da : α) (db : β) (dc : γ) :
    (List.zipWith f a b).getD i dc = f (a.getD i da) (b.getD i db) := by
  rw [List.getD_eq_getElem?_getD, List.getElem?_zipWith', List.getElem?_eq_getElem ha,
    List.getElem?_eq_getElem hb, List.getD_eq_getElem?_getD, List.getElem?_eq_getElem ha,
    List.getD_eq_getElem?_getD, List.getElem?_eq_getElem hb]
  rfl

theorem decAt_getD (row : List ℝ) (l : ℕ) (hl : l < row.length) :
    (decAt row l).getD l 0 = row.getD l 0 - 1 := by
  rw [decAt, List.getD_eq_getElem?_getD, List.getElem?_set_self', List.getElem?_eq_getElem hl]
  rfl

theorem decAt_length (row : List ℝ) (l : ℕ) : (decAt row l).length = row.length := by
  simp [decAt]

theorem softmaxRow_length (row : List ℝ) : (softmaxRow row).length = row.length := by
  simp [softmaxRow]

theorem softmaxRow_getD_pos (row : List ℝ) (c : ℕ) (hc : c < row.length) :
    0 < (softmaxRow row).getD c 0 := by
  rw [softmaxRow_getD row c hc, plainSoftmaxProb]
  refine div_pos (Real.exp_pos _) (List.sum_pos _ ?_ ?_)
  · intro y hy
    obtain ⟨a, _, rfl⟩ := List.mem_map.mp hy
    exact Real.exp_pos a
  · have : row ≠ [] := List.ne_nil_of_length_pos (by omega)
    simpa using this

theorem chunks_getD (N T : ℕ) (rows : List (List ℝ)) (p : ℕ) (hp : p < N * T) :
    ((chunks N T rows).getD (p / T) []).getD (p % T) [] = rows.getD p [] := by
  have hT : 0 < T := by
    rcases Nat.eq_zero_or_pos T with h | h
    · subst h; omega
    · exact h
  have hp' : p < T * N := by rw [Nat.mul_comm]; exact hp
  have hdiv : p / T < N := Nat.div_lt_of_lt_mul hp'
  have hmod : p % T < T := Nat.mod_lt _ hT
  have hrange : p / T < (List.range N).length := by simpa using hdiv
  rw [chunks, getD_map (fun n => (rows.drop (n * T)).take T) (List.range N) (p / T)
    hrange 0 []]
  have hr : (List.range N).getD (p / T) 0 = p / T := by
    rw [List.getD_eq_getElem _ _ hrange, List.getElem_range]
  rw [hr, List.getD_eq_getElem?_getD, List.getElem?_take, if_pos hmod,
    List.getElem?_drop, Nat.div_add_mod' p T, ← List.getD_eq_getElem?_getD]

/-- C10 (counterexample): after a forward with an all-zero mask, two
successive backward calls on the loss unit both succeed and return the
same (all-zero) gradient, so the second call does not always return a
different value than the first. -/
theorem c10_second_backward_cex :
    exceptOk ((temporal_softmax_loss.backward
      ((temporal_softmax_loss.forward (temporal_softmax_loss.mkState true)
        [[[0, 0]]] [[0]] [[0]]).2)).bind
      (fun pr => temporal_softmax_loss.backward pr.2)) = true
    ∧ ((temporal_softmax_loss.backward
      ((temporal_softmax_loss.forward (temporal_softmax_loss.mkState true)
        [[[0, 0]]] [[0]] [[0]]).2)).bind
      (fun pr => temporal_softmax_loss.backward pr.2)).map Prod.fst =
      (temporal_softmax_loss.backward
      ((temporal_softmax_loss.forward (temporal_softmax_loss.mkState true)
        [[[0, 0]]] [[0]] [[0]]).2)).map Prod.fst := by
  have hfwd : (temporal_softmax_loss.forward (temporal_softmax_loss.mkState true)
      [[[0, 0]]] [[0]] [[0]]).2 =
      { dim_average := true, dLoss := some [softmaxRow [0, 0]], label := some [[0]], mask := some [[0]] } := rfl
  have hsm : softmaxRow [0, 0] = [1 / 2, 1 / 2] := by
    norm_num [softmaxRow, rowMax, Real.exp_zero]
  have hb1 : temporal_softmax_loss.backward
      { dim_average := true, dLoss := some [softmaxRow [0, 0]], label := some [[0]], mask := some [[0]] } =
      .ok ([[[0, 0]]], { dim_average := true, dLoss := some [[0, 0]], label := some [[0]], mask := some [[0]] }) := by
    rw [hsm]
    simp only [temporal_softmax_loss.backward]
    norm_num [decAt, chunks]
    have hr : List.range 1 = [0] := rfl
    simp [hr]
  have hb2 : temporal_softmax_loss.backward
      { dim_average := true, dLoss := some [[0, 0]], label := some [[0]], mask := some [[0]] } =
      .ok ([[[0, 0]]], { dim_average := true, dLoss := some [[0, 0]], label := some [[0]], mask := some [[0]] }) := by
    simp only [temporal_softmax_loss.backward]
    norm_num [decAt, chunks]
    have hr : List.range 1 = [0] := rfl
    simp [hr]
  rw [hfwd, hb1]
  have hbind : (Except.ok (ε := TslError)
      (([[[(0 : ℝ), 0]]], { dim_average := true, dLoss := some [[(0 : ℝ), 0]], label := some [[0]], mask := some [[(0 : ℝ)]] }) : _ × TSLState)).bind
      (fun pr => temporal_softmax_loss.backward pr.2) =
      temporal_softmax_loss.backward
        { dim_average := true, dLoss := some [[0, 0]], label := some [[0]], mask := some [[0]] } := rfl
  rw [hbind, hb2]
  exact ⟨rfl, rfl⟩

/-- C10 (amended): the loss unit's backward is not one-shot — after a
successful backward the stored `dLoss` is still present, so a second
backward without an intervening forward does not raise the
missing-forward-state error; it subtracts 1 at the label positions and
rescales the stored matrix a second time, and whenever at least one
flattened position is masked in (mask value 1, label in range) the
second call returns a different value than the first (with an all-zero
mask both calls return the same zero gradient). -/
theorem c10_second_backward_spec (feat : List (List (List ℝ)))
    (label : List (List ℕ)) (mask : List (List ℝ)) (p : ℕ)
    (hflen : feat.flatten.length = label.flatten.length)
    (hmlen : mask.flatten.length = label.flatten.length)
    (hNT : label.length * (label.headD []).length = label.flatten.length)
    (hp : p < label.flatten.length)
    (hmask1 : mask.flatten.getD p 0 = 1)
    (hlab : label.flatten.getD p 0 < (feat.flatten.getD p []).length) :
    ∃ r1 s2, temporal_softmax_loss.backward
        (temporal_softmax_loss.forward (temporal_softmax_loss.mkState true)
          feat label mask).2 = .ok (r1, s2)
      ∧ s2.dLoss.isSome = true
      ∧ ∃ r2 s3, temporal_softmax_loss.backward s2 = .ok (r2, s3) ∧ r2 ≠ r1 := by
  have hpf : p < feat.flatten.length := by rw [hflen]; exact hp
  have hpm : p < mask.flatten.length := by rw [hmlen]; exact hp
  set c := label.flatten.getD p 0 with hc_def
  set P := feat.flatten.map softmaxRow with hP_def
  set d1 := List.zipWith decAt P label.flatten with hd1_def
  set d2 := d1.map (fun row => row.map (fun a => a / (label.length : ℝ))) with hd2_def
  set d3 := List.zipWith (fun (row : List ℝ) m => row.map (fun a => a * m)) d2 mask.flatten
    with hd3_def
  set e1 := List.zipWith decAt d3 label.flatten with he1_def
  set e2 := e1.map (fun row => row.map (fun a => a / (label.length : ℝ))) with he2_def
  set e3 := List.zipWith (fun (row : List ℝ) m => row.map (fun a => a * m)) e2 mask.flatten
    with he3_def
  have hback1 : temporal_softmax_loss.backward
      (temporal_softmax_loss.forward (temporal_softmax_loss.mkState true) feat label mask).2 =
      .ok (chunks label.length (label.headD []).length d3,
        { dim_average := true, dLoss := some d3, label := some label, mask := some mask }) := rfl
  have hback2 : temporal_softmax_loss.backward
      { dim_average := true, dLoss := some d3, label := some label, mask := some mask } =
      .ok (chunks label.length (label.headD []).length e3,
        { dim_average := true, dLoss := some e3, label := some label, mask := some mask }) := rfl
  refine ⟨_, _, hback1, rfl, _, _, hback2, ?_⟩
  have hPlen : P.length = label.flatten.length := by rw [hP_def, List.length_map, hflen]
  have hd1len : d1.length = label.flatten.length := by
    rw [hd1_def, List.length_zipWith, hPlen, min_self]
  have hd2len : d2.length = label.flatten.length := by rw [hd2_def, List.length_map, hd1len]
  have hd3len : d3.length = label.flatten.length := by
    rw [hd3_def, List.length_zipWith, hd2len, hmlen, min_self]
  have he1len : e1.length = label.flatten.length := by
    rw [he1_def, List.length_zipWith, hd3len, min_self]
  have he2len : e2.length = label.flatten.length := by rw [he2_def, List.length_map, he1len]
  have he3len : e3.length = label.flatten.length := by
    rw [he3_def, List.length_zipWith, he2len, hmlen, min_self]
  have hProw : P.getD p [] = softmaxRow (feat.flatten.getD p []) := by
    rw [hP_def]
    exact getD_map softmaxRow feat.flatten p hpf [] []
  have hProwLen : (P.getD p []).length = (feat.flatten.getD p []).length := by
    rw [hProw, softmaxRow_length]
  have hcP : c < (P.getD p []).length := by rw [hProwLen]; exact hlab
  have hq : 0 < (P.getD p []).getD c 0 := by
    rw [hProw]
    exact softmaxRow_getD_pos _ _ hlab
  have hd1row : d1.getD p [] = decAt (P.getD p []) c := by
    rw [hd1_def]
    exact getD_zipWith decAt P label.flatten p (by rw [hPlen]; exact hp) hp [] 0 []
  have hcd1 : c < (d1.getD p []).length := by rw [hd1row, decAt_length]; exact hcP
  have hv1 : (d1.getD p []).getD c 0 = (P.getD p []).getD c 0 - 1 := by
    rw [hd1row, decAt_getD _ _ hcP]
  have hd2row : d2.getD p [] = (d1.getD p []).map (fun a => a / (label.length : ℝ)) := by
    rw [hd2_def]
    exact getD_map _ d1 p (by rw [hd1len]; exact hp) [] []
  have hcd2 : c < (d2.getD p []).length := by rw [hd2row, List.length_map]; exact hcd1
  have hv2 : (d2.getD p []).getD c 0 = (d1.getD p []).getD c 0 / (label.length : ℝ) := by
    rw [hd2row]
    exact getD_map _ _ c hcd1 0 0
  have hd3row : d3.getD p [] = (d2.getD p []).map (fun a => a * mask.flatten.getD p 0) := by
    rw [hd3_def]
    exact getD_zipWith _ d2 mask.flatten p (by rw [hd2len]; exact hp) hpm [] 0 []
  have hcd3 : c < (d3.getD p []).length := by rw [hd3row, List.length_map]; exact hcd2
  have hv3 : (d3.getD p []).getD c 0 = (d2.getD p []).getD c 0 * mask.flatten.getD p 0 := by
    rw [hd3row]
    exact getD_map _ _ c hcd2 0 0
  have hv : (d3.getD p []).getD c 0 =
      ((P.getD p []).getD c 0 - 1) / (label.length : ℝ) := by
    rw [hv3, hmask1, mul_one, hv2, hv1]
  have he1row : e1.getD p [] = decAt (d3.getD p []) c := by
    rw [he1_def]
    exact getD_zipWith decAt d3 label.flatten p (by rw [hd3len]; exact hp) hp [] 0 []
  have hce1 : c < (e1.getD p []).length := by rw [he1row, decAt_length]; exact hcd3
  have hw1 : (e1.getD p []).getD c 0 = (d3.getD p []).getD c 0 - 1 := by
    rw [he1row, decAt_getD _ _ hcd3]
  have he2row : e2.getD p [] = (e1.getD p []).map (fun a => a / (label.length : ℝ)) := by
    rw [he2_def]
    exact getD_map _ e1 p (by rw [he1len]; exact hp) [] []
  have hce2 : c < (e2.getD p []).length := by rw [he2row, List.length_map]; exact hce1
  have hw2 : (e2.getD p []).getD c 0 = (e1.getD p []).getD c 0 / (label.length : ℝ) := by
    rw [he2row]
    exact getD_map _ _ c hce1 0 0
  have he3row : e3.getD p [] = (e2.getD p []).map (fun a => a * mask.flatten.getD p 0) := by
    rw [he3_def]
    exact getD_zipWith _ e2 mask.flatten p (by rw [he2len]; exact hp) hpm [] 0 []
  have hw3 : (e3.getD p []).getD c 0 = (e2.getD p []).getD c 0 * mask.flatten.getD p 0 := by
    rw [he3row]
    exact getD_map _ _ c hce2 0 0
  have hw : (e3.getD p []).getD c 0 =
      ((d3.getD p []).getD c 0 - 1) / (label.length : ℝ) := by
    rw [hw3, hmask1, mul_one, hw2, hw1]
  have hlabne : label ≠ [] := by
    intro hnil
    rw [hnil] at hp
    simp at hp
  have hNpos : 0 < label.length := List.length_pos.mpr hlabne
  intro hEq
  have hpNT : p < label.length * (label.headD []).length := by rw [hNT]; exact hp
  have hrowEq : e3.getD p [] = d3.getD p [] := by
    rw [← chunks_getD label.length (label.headD []).length e3 p hpNT,
      ← chunks_getD label.length (label.headD []).length d3 p hpNT, hEq]
  have hvEq : (e3.getD p []).getD c 0 = (d3.getD p []).getD c 0 := by rw [hrowEq]
  rw [hw] at hvEq
  have hn1 : (1 : ℝ) ≤ (label.length : ℝ) := by exact_mod_cast hNpos
  have hn0 : (label.length : ℝ) ≠ 0 := by positivity
  rw [div_eq_iff hn0] at hvEq
  have hA : (d3.getD p []).getD c 0 * (label.length : ℝ) = (P.getD p []).getD c 0 - 1 := by
    rw [hv]
    field_simp
  have hqv : (d3.getD p []).getD c 0 = (P.getD p []).getD c 0 := by linarith
  rw [hqv] at hA
  have hmul : (P.getD p []).getD c 0 * 1 ≤ (P.getD p []).getD c 0 * (label.length : ℝ) :=
    mul_le_mul_of_nonneg_left hn1 hq.le
  rw [mul_one] at hmul
  linarith

/-- C10 (witness): the amended statement instantiated on `N=1, T=1`,
`feat=[[0,0]]`, `label=[[0]]` and an all-ones mask. -/
theorem c10_second_backward_spec_witness :
    ∃ r1 s2, temporal_softmax_loss.backward
        (temporal_softmax_loss.forward (temporal_softmax_loss.mkState true)
          [[[0, 0]]] [[0]] [[1]]).2 = .ok (r1, s2)
      ∧ s2.dLoss.isSome = true
      ∧ ∃ r2 s3, temporal_softmax_loss.backward s2 = .ok (r2, s3) ∧ r2 ≠ r1 :=
  c10_second_backward_spec [[[0, 0]]] [[0]] [[1]] 0 rfl rfl rfl
    (by norm_num) (by norm_num) (by norm_num)
